import Mathlib

/-!
Shallow embedding of the tokenizer of `src/src/tokenizer.rs` (struct `Tokenizer`,
functions `next`, `tokenize`, `build_sloc`, `create_token`, `create_token_spec_loc`).

Source bytes are modelled as `Nat` (the Rust code works on `u8`; all inputs of
interest are ASCII and no arithmetic overflow is involved, only comparisons).
Rust `panic!` calls are modelled as `Except.error` with the panic message.
Loops are modelled with an explicit fuel argument (structural recursion); the
driver passes fuel larger than the buffer, and fuel sufficiency is proved where
a theorem needs it.  Fuel exhaustion in a fallible loop yields the distinguished
error message "FUEL", which the real program never produces (proved below).

The helper modules `cbuf.rs`, `ascii_util.rs`, `tok_maps.rs`, `token.rs`,
`tok_flags.rs`, `ident.rs`, `sloc.rs` of this repository are not under `src/`;
their definitions below are modelled from the spec and are marked as such.
-/

namespace Rcc

/-- Modelled from the spec: `tok_flags.rs` is missing from `src/`.  The spec
only requires a bit-flag set with three distinct consumer-visible bits
(whitespace-before, line-feed-after, begin-of-line); concrete bit values are a
modelling choice. -/
def WS_BEFORE : Nat := 1

/-- Modelled from the spec: line-feed-after flag bit (see `WS_BEFORE`). -/
def LF_AFTER : Nat := 2

/-- Modelled from the spec: begin-of-line flag bit (see `WS_BEFORE`). -/
def IS_AT_BOL : Nat := 4

/-- Modelled from the spec: `ascii_util::is_letter` (byte-classification
predicates are fixed external data per the spec).  ASCII letters and
underscore. -/
def is_letter (c : Nat) : Bool :=
  (65 ≤ c && c ≤ 90) || (97 ≤ c && c ≤ 122) || c == 95

/-- Modelled from the spec: `ascii_util::is_dec`, ASCII decimal digits. -/
def is_dec (c : Nat) : Bool := 48 ≤ c && c ≤ 57

/-- Modelled from the spec: the set of operator-start bytes recognised by
`ascii_util::is_op_start`.  The exact list is fixed external data; it contains
the ASCII punctuation bytes that begin operators (notably `<` = 60 and `/` =
47) and contains no letter, digit, quote (34, 39), space, tab, line-feed or
NUL. -/
def opStartBytes : List Nat :=
  [43, 45, 42, 47, 37, 61, 60, 62, 33, 38, 124, 94, 126, 63, 58, 59, 44, 46,
   35, 40, 41, 91, 93, 123, 125]

/-- Modelled from the spec: `ascii_util::is_op_start`. -/
def is_op_start (c : Nat) : Bool := opStartBytes.contains c

/-- Source location: shared file name, 1-based line, 1-based column
(`sloc.rs`, modelled from the spec's data model). -/
structure SourceLoc where
  file : String
  line : Nat
  column : Nat
  deriving DecidableEq, Repr

/-- Token kinds (`toktype.rs` is not under `src/`).  The punctuation variants
of the Rust enum `T` are collapsed into `TOKEN_PUNCT code`; the punctuation
table maps spellings to such codes, which is faithful to the fact that
`tok_maps::make_maps` maps spellings to operator kinds only, never to the
special kinds. -/
inductive T where
  | TOKEN_IDENT
  | TOKEN_NUMBER
  | TOKEN_STRING
  | TOKEN_CHAR
  | TOKEN_EOF
  | TOKEN_WS
  | TOKEN_LF
  | TOKEN_COMMENT
  | TOKEN_ERROR
  | TOKEN_PUNCT (code : Nat)
  deriving DecidableEq, Repr

/-- Token (`token.rs`, fields per the spec's data model): kind, exact literal
text (as bytes), source location, flag bits `pos`, and for identifiers a shared
reference to the interned `Ident`.  Shared references are modelled by the
allocation index of the `Ident` (pointer identity = equal index). -/
structure Token where
  tp : T
  val : List Nat
  loc : SourceLoc
  pos : Nat
  id : Option Nat
  deriving DecidableEq, Repr

/-- Modelled from the spec: `Token::make_eof` (internal marker constructors of
`token.rs`): an EOF marker with empty text, no flags, no identifier. -/
def Token.make_eof : Token := ⟨T.TOKEN_EOF, [], ⟨"", 0, 0⟩, 0, none⟩

/-- Modelled from the spec: `Token::make_ws`, the whitespace marker. -/
def Token.make_ws : Token := ⟨T.TOKEN_WS, [], ⟨"", 0, 0⟩, 0, none⟩

/-- Modelled from the spec: `Token::make_lf`, the line-feed marker. -/
def Token.make_lf : Token := ⟨T.TOKEN_LF, [], ⟨"", 0, 0⟩, 0, none⟩

/-- Modelled from the spec: `cbuf.rs` is not under `src/`.  Per spec section
4.1: a cursor over the whole source; `peek` pads past end-of-input with a NUL
sentinel so callers never bounds-check; `next` consumes one byte and updates
line (increment, reset column) on a newline, else advances the column;
column/line reflect the position of the just-consumed byte (1-based);
`is_eof` is true once the sentinel has been reached (consumed), i.e. once the
cursor has moved past the end of the content — any earlier notion of `is_eof`
would make the EOF token of `Tokenizer::next` and the end-of-input panics of
the comment/string loops unreachable, contradicting the spec. -/
structure CBuf where
  buf : List Nat
  pos : Nat
  line : Nat
  column : Nat
  deriving DecidableEq, Repr

/-- Modelled from the spec: `CBuf::create`, cursor at the start, line 1. -/
def CBuf.create (content : List Nat) : CBuf := ⟨content, 0, 1, 0⟩

/-- Modelled from the spec: `CBuf::is_eof` (see `CBuf`). -/
def CBuf.is_eof (b : CBuf) : Bool := b.buf.length < b.pos

/-- Modelled from the spec: one-byte lookahead with NUL sentinel padding. -/
def CBuf.peek_1 (b : CBuf) : Nat := b.buf.getD b.pos 0

/-- Modelled from the spec: four-byte lookahead with NUL sentinel padding. -/
def CBuf.peek_4 (b : CBuf) : Nat × Nat × Nat × Nat :=
  (b.buf.getD b.pos 0, b.buf.getD (b.pos + 1) 0,
   b.buf.getD (b.pos + 2) 0, b.buf.getD (b.pos + 3) 0)

/-- Modelled from the spec: `CBuf::next`, consume one byte (the sentinel NUL
past the end), update line/column. -/
def CBuf.next (b : CBuf) : Nat × CBuf :=
  let c := b.buf.getD b.pos 0
  if c = 10 then (c, ⟨b.buf, b.pos + 1, b.line + 1, 0⟩)
  else (c, ⟨b.buf, b.pos + 1, b.line, b.column + 1⟩)

/-- Consume one byte discarding it (a bare `buffer.next();` statement). -/
def CBuf.skip (b : CBuf) : CBuf := (CBuf.next b).2

/-- Association-list lookup, modelling `HashMap` lookups (`contains_key` /
`get`).  Both the punctuation map and the identifier map are modelled as
association lists. -/
def assocLookup (m : List (List Nat × Nat)) (k : List Nat) : Option Nat :=
  match m with
  | [] => none
  | (k', v) :: rest => if k' = k then some v else assocLookup rest k

/-- The tokenizer state (struct `Tokenizer`).  `punct_map` maps operator
spellings to punctuation codes (`tok_maps::make_maps` is fixed external data
per the spec, so the map is carried as data).  `idmap` maps identifier text to
the allocation index of its interned `Ident`; `next_id` is the allocator
counter modelling fresh `shared_ptr::new(Ident::new(..))` allocations. -/
structure Tokenizer where
  file_name : String
  buffer : CBuf
  punct_map : List (List Nat × Nat)
  idmap : List (List Nat × Nat)
  next_id : Nat
  deriving DecidableEq, Repr

/-- Retroactive location reconstruction (`Tokenizer::build_sloc`): from the
buffer's current column and the token text length; Rust computes
`offs = col` then `if col >= len { offs = col - len + 1 }`. -/
def Tokenizer.build_sloc (tz : Tokenizer) (sb : List Nat) : SourceLoc :=
  let col := tz.buffer.column
  let len := sb.length
  let offs := if len ≤ col then col - len + 1 else col
  ⟨tz.file_name, tz.buffer.line, offs⟩

/-- Build a token with a retroactively reconstructed location
(`Tokenizer::create_token`). -/
def Tokenizer.create_token (tz : Tokenizer) (tp : T) (sb : List Nat) : Token :=
  ⟨tp, sb, tz.build_sloc sb, 0, none⟩

/-- Build a token with an explicitly captured location
(`Tokenizer::create_token_spec_loc`). -/
def Tokenizer.create_token_spec_loc (tz : Tokenizer) (tp : T) (sb : List Nat)
    (loc : SourceLoc) : Token :=
  ⟨tp, sb, loc, 0, none⟩

/-- The `//` line-comment loop of `Tokenizer::next` (lines 98-111): consume
until a line-feed (returning the line-feed marker) or the NUL sentinel
(panic "no new-line at end of file...").  `none` models the (unreachable)
fall-through when the `while !buffer.is_eof()` guard fails. -/
def lineCommentLoop (fuel : Nat) (b : CBuf) (comments : List Nat) :
    Except String (Option Token × CBuf) :=
  if b.is_eof then .ok (none, b)
  else
    match fuel with
    | 0 => .error "FUEL"
    | fuel' + 1 =>
      let tmp := (b.next).1
      let b' := (b.next).2
      if tmp = 10 then .ok (some Token.make_lf, b')
      else if tmp = 0 then .error "no new-line at end of file..."
      else lineCommentLoop fuel' b' (comments ++ [tmp])

/-- The `/* */` block-comment loop of `Tokenizer::next` (lines 116-126):
consume until `/` preceded by `*` (returning the whitespace marker) or the NUL
sentinel (panic "unclosed comment"). -/
def blockCommentLoop (fuel : Nat) (b : CBuf) (prev : Nat) :
    Except String (Option Token × CBuf) :=
  if b.is_eof then .ok (none, b)
  else
    match fuel with
    | 0 => .error "FUEL"
    | fuel' + 1 =>
      let tmp := (b.next).1
      let b' := (b.next).2
      if tmp = 0 then .error "unclosed comment"
      else if tmp = 47 ∧ prev = 42 then .ok (some Token.make_ws, b')
      else blockCommentLoop fuel' b' tmp

/-- The identifier loop of `Tokenizer::next` (lines 135-142): greedily consume
letters and digits. -/
def identLoop (fuel : Nat) (b : CBuf) (sb : List Nat) : List Nat × CBuf :=
  if b.is_eof then (sb, b)
  else
    match fuel with
    | 0 => (sb, b)
    | fuel' + 1 =>
      let peek1 := b.peek_1
      if is_letter peek1 || is_dec peek1 then
        identLoop fuel' (b.next).2 (sb ++ [(b.next).1])
      else (sb, b)

/-- The number loop of `Tokenizer::next` (lines 230-249): greedily consume
digits; on an exponent marker consume it and an optional sign; on `.` or any
letter keep consuming. -/
def numberLoop (fuel : Nat) (b : CBuf) (sb : List Nat) : List Nat × CBuf :=
  if b.is_eof then (sb, b)
  else
    match fuel with
    | 0 => (sb, b)
    | fuel' + 1 =>
      let peekc := b.peek_1
      if is_dec peekc then
        numberLoop fuel' (b.next).2 (sb ++ [(b.next).1])
      else if peekc = 101 ∨ peekc = 69 ∨ peekc = 112 ∨ peekc = 80 then
        let c := (b.next).1
        let b' := (b.next).2
        let p2 := b'.peek_1
        if p2 = 45 ∨ p2 = 43 then
          numberLoop fuel' (b'.next).2 (sb ++ [c] ++ [(b'.next).1])
        else numberLoop fuel' b' (sb ++ [c])
      else if peekc = 46 ∨ is_letter peekc then
        numberLoop fuel' (b.next).2 (sb ++ [(b.next).1])
      else (sb, b)

/-- The string/char literal loop of `Tokenizer::next` (lines 264-285): consume
until the matching delimiter; NUL is fatal ("unclosed string"); a backslash
and the byte after it are both taken verbatim. -/
def stringLoop (fuel : Nat) (b : CBuf) (endq : Nat) (sb : List Nat) :
    Except String (List Nat × CBuf) :=
  if b.is_eof then .ok (sb, b)
  else
    match fuel with
    | 0 => .error "FUEL"
    | fuel' + 1 =>
      let c := (b.next).1
      let b' := (b.next).2
      if c = 0 then .error "unclosed string"
      else if c = endq then .ok (sb, b')
      else if c = 92 then
        stringLoop fuel' ((b'.next).2) endq (sb ++ [92] ++ [(b'.next).1])
      else stringLoop fuel' b' endq (sb ++ [c])

/-- The part of `Tokenizer::next` after the whitespace/newline/EOF and comment
branches (identifiers, operators, numbers, string/char literals, the
single-byte fallback and the error token; lines 132-311).  `c1 c2 c3 c4` are
the four bytes peeked at the top of `next` — on the (unreachable) comment
fall-through paths they are stale with respect to the buffer, exactly as in
the Rust code. -/
def nextAfterComments (fuel : Nat) (tz : Tokenizer) (c1 c2 c3 c4 : Nat) :
    Except String (Token × Tokenizer) :=
  if is_letter c1 then
    -- identifiers (lines 132-164)
    let sb := (identLoop fuel tz.buffer []).1
    let b' := (identLoop fuel tz.buffer []).2
    let tz1 : Tokenizer :=
      ⟨tz.file_name, b', tz.punct_map, tz.idmap, tz.next_id⟩
    let tz2 : Tokenizer :=
      if (assocLookup tz1.idmap sb).isSome then tz1
      else ⟨tz1.file_name, tz1.buffer, tz1.punct_map,
            (sb, tz1.next_id) :: tz1.idmap, tz1.next_id + 1⟩
    .ok (tz2.create_token T.TOKEN_IDENT sb, tz2)
  else if is_op_start c1 then
    -- operators (lines 168-223): 4-, 3-, 2-, 1-byte lookups, first hit wins
    let four := [c1, c2, c3, c4]
    match assocLookup tz.punct_map four with
    | some tp =>
      let tz' : Tokenizer := ⟨tz.file_name, tz.buffer.skip.skip.skip.skip,
        tz.punct_map, tz.idmap, tz.next_id⟩
      .ok (tz'.create_token (T.TOKEN_PUNCT tp) four, tz')
    | none =>
      let three := [c1, c2, c3]
      match assocLookup tz.punct_map three with
      | some tp =>
        let tz' : Tokenizer := ⟨tz.file_name, tz.buffer.skip.skip.skip,
          tz.punct_map, tz.idmap, tz.next_id⟩
        .ok (tz'.create_token (T.TOKEN_PUNCT tp) three, tz')
      | none =>
        let two := [c1, c2]
        match assocLookup tz.punct_map two with
        | some tp =>
          let tz' : Tokenizer := ⟨tz.file_name, tz.buffer.skip.skip,
            tz.punct_map, tz.idmap, tz.next_id⟩
          .ok (tz'.create_token (T.TOKEN_PUNCT tp) two, tz')
        | none =>
          let one := [c1]
          match assocLookup tz.punct_map one with
          | some tp =>
            let tz' : Tokenizer := ⟨tz.file_name, tz.buffer.skip,
              tz.punct_map, tz.idmap, tz.next_id⟩
            .ok (tz'.create_token (T.TOKEN_PUNCT tp) one, tz')
          | none => .error "unknown operator"
  else if is_dec c1 then
    -- numbers (lines 227-252)
    let sb := (numberLoop fuel tz.buffer []).1
    let b' := (numberLoop fuel tz.buffer []).2
    let tz' : Tokenizer :=
      ⟨tz.file_name, b', tz.punct_map, tz.idmap, tz.next_id⟩
    .ok (tz'.create_token T.TOKEN_NUMBER sb, tz')
  else if c1 = 34 ∨ c1 = 39 then
    -- string/char literals (lines 256-298)
    let endq := (tz.buffer.next).1
    let b1 := (tz.buffer.next).2
    let loc : SourceLoc := ⟨tz.file_name, b1.line, b1.column⟩
    match stringLoop fuel b1 endq [] with
    | .error e => .error e
    | .ok (sb, b2) =>
      let repr := endq :: (sb ++ [endq])
      let tz' : Tokenizer :=
        ⟨tz.file_name, b2, tz.punct_map, tz.idmap, tz.next_id⟩
      if endq = 34 then
        .ok (tz'.create_token_spec_loc T.TOKEN_STRING repr loc, tz')
      else
        .ok (tz'.create_token_spec_loc T.TOKEN_CHAR repr loc, tz')
  else
    -- other ASCII: single-byte table hit, else error token (lines 301-311)
    let one := [c1]
    match assocLookup tz.punct_map one with
    | some tp =>
      let tz' : Tokenizer := ⟨tz.file_name, tz.buffer.skip,
        tz.punct_map, tz.idmap, tz.next_id⟩
      .ok (tz'.create_token (T.TOKEN_PUNCT tp) one, tz')
    | none =>
      let tz' : Tokenizer := ⟨tz.file_name, tz.buffer.skip,
        tz.punct_map, tz.idmap, tz.next_id⟩
      .ok (tz'.create_token T.TOKEN_ERROR one, tz')

/-- `Tokenizer::next` (lines 61-312): dispatch on the four peeked bytes —
end-of-input, whitespace, line-feed, the two comment forms, then the remaining
branches (`nextAfterComments`). -/
def next (fuel : Nat) (tz : Tokenizer) : Except String (Token × Tokenizer) :=
  let c1 := tz.buffer.peek_4.1
  let c2 := tz.buffer.peek_4.2.1
  let c3 := tz.buffer.peek_4.2.2.1
  let c4 := tz.buffer.peek_4.2.2.2
  if c1 = 0 then .ok (Token.make_eof, tz)
  else if c1 = 32 ∨ c1 = 9 then
    .ok (Token.make_ws,
      ⟨tz.file_name, tz.buffer.skip, tz.punct_map, tz.idmap, tz.next_id⟩)
  else if c1 = 10 then
    .ok (Token.make_lf,
      ⟨tz.file_name, tz.buffer.skip, tz.punct_map, tz.idmap, tz.next_id⟩)
  else if c1 = 47 ∧ c2 = 47 then
    match lineCommentLoop fuel tz.buffer.skip.skip [47, 47] with
    | .error e => .error e
    | .ok (some t, b') =>
      .ok (t, ⟨tz.file_name, b', tz.punct_map, tz.idmap, tz.next_id⟩)
    | .ok (none, b') =>
      nextAfterComments fuel
        ⟨tz.file_name, b', tz.punct_map, tz.idmap, tz.next_id⟩ c1 c2 c3 c4
  else if c1 = 47 ∧ c2 = 42 then
    match blockCommentLoop fuel tz.buffer.skip.skip 0 with
    | .error e => .error e
    | .ok (some t, b') =>
      .ok (t, ⟨tz.file_name, b', tz.punct_map, tz.idmap, tz.next_id⟩)
    | .ok (none, b') =>
      nextAfterComments fuel
        ⟨tz.file_name, b', tz.punct_map, tz.idmap, tz.next_id⟩ c1 c2 c3 c4
  else nextAfterComments fuel tz c1 c2 c3 c4

/-- Apply a function to the first element of a list (the line assembler's
`line.get_mut(0)`). -/
def mapFirst (f : Token → Token) : List Token → List Token
  | [] => []
  | t :: ts => f t :: ts

/-- Apply a function to the last element of a list (the line assembler's
`line.get_mut(len - 1)`). -/
def mapLast (f : Token → Token) : List Token → List Token
  | [] => []
  | [t] => [f t]
  | t :: ts => t :: mapLast f ts

/-- Set the `LF_AFTER` bit on the last and the `IS_AT_BOL` and `WS_BEFORE`
bits on the first token of a flushed line (lines 358-364; last first, exactly
as in the Rust code — for a one-token line both updates hit that token). -/
def flushFlags (line : List Token) : List Token :=
  mapFirst (fun t => ⟨t.tp, t.val, t.loc, (t.pos ||| IS_AT_BOL) ||| WS_BEFORE, t.id⟩)
    (mapLast (fun t => ⟨t.tp, t.val, t.loc, t.pos ||| LF_AFTER, t.id⟩) line)

/-- The driver loop of `Tokenizer::tokenize` (lines 321-379): repeatedly call
`next`, re-resolve identifier tokens in the identifier map (panicking if
absent), flush pending lines on line-feed markers with flag annotation,
coalesce whitespace markers into the pending-whitespace flag, and stop either
on the EOF token (flushing the pending line and appending EOF) or when the
buffer reports end-of-file. -/
def tokenizeLoop (fuel : Nat) (tz : Tokenizer) (tokenlist line : List Token)
    (next_ws : Bool) : Except String (List Token × Tokenizer) :=
  if tz.buffer.is_eof then .ok (tokenlist, tz)
  else
    match fuel with
    | 0 => .error "FUEL"
    | fuel' + 1 =>
      match next (tz.buffer.buf.length + 5) tz with
      | .error e => .error e
      | .ok (t0, tz') =>
        let step : Except String Token :=
          if t0.tp = T.TOKEN_IDENT then
            match assocLookup tz'.idmap t0.val with
            | none => .error "cannot find the name in the hash-table"
            | some v => .ok ⟨t0.tp, t0.val, t0.loc, t0.pos, some v⟩
          else .ok t0
        match step with
        | .error e => .error e
        | .ok t1 =>
          if t1.tp = T.TOKEN_EOF then .ok (tokenlist ++ line ++ [t1], tz')
          else
            let t2 := if next_ws then
                ⟨t1.tp, t1.val, t1.loc, t1.pos ||| WS_BEFORE, t1.id⟩
              else t1
            let nws := if next_ws then false else next_ws
            if t2.tp = T.TOKEN_LF ∨ t2.tp = T.TOKEN_COMMENT then
              let line' := if t2.tp = T.TOKEN_COMMENT then line ++ [t2] else line
              if line' = [] then tokenizeLoop fuel' tz' tokenlist [] nws
              else
                tokenizeLoop fuel' tz' (tokenlist ++ flushFlags line') [] nws
            else if t2.tp = T.TOKEN_WS then
              tokenizeLoop fuel' tz' tokenlist line true
            else tokenizeLoop fuel' tz' tokenlist (line ++ [t2]) nws

/-- Build the tokenizer state of `Tokenizer::new_from_string` (the punctuation
map and the initial identifier map are the constructor's data). -/
def mkTokenizer (pm idm : List (List Nat × Nat)) (content : List Nat) :
    Tokenizer :=
  ⟨"<string-input>", CBuf.create content, pm, idm, 0⟩

/-- `Tokenizer::tokenize` on a tokenizer freshly constructed from a string:
run the driver loop with ample fuel. -/
def tokenize (pm idm : List (List Nat × Nat)) (content : List Nat) :
    Except String (List Token × Tokenizer) :=
  tokenizeLoop (content.length + 5) (mkTokenizer pm idm content) [] [] false

/-- Specification-side definition, following the spec's words: longest-match
discipline over the punctuation table — try the 4-byte spelling, then 3, 2, 1;
first hit wins; `none` when no length matches. -/
def specLongestMatch (pm : List (List Nat × Nat)) (c1 c2 c3 c4 : Nat) :
    Option (List Nat × Nat) :=
  match assocLookup pm [c1, c2, c3, c4] with
  | some k => some ([c1, c2, c3, c4], k)
  | none =>
    match assocLookup pm [c1, c2, c3] with
    | some k => some ([c1, c2, c3], k)
    | none =>
      match assocLookup pm [c1, c2] with
      | some k => some ([c1, c2], k)
      | none =>
        match assocLookup pm [c1] with
        | some k => some ([c1], k)
        | none => none

/-- Specification-side well-formedness of the body of a properly terminated
string/char literal with delimiter `endq`: a sequence of units, each either a
backslash-escape pair (taken verbatim) or a single byte that is not the
delimiter, not a backslash and not NUL. -/
def wellFormedBody (endq : Nat) : List Nat → Bool
  | [] => true
  | 92 :: rest =>
    match rest with
    | [] => false
    | _ :: rest' => wellFormedBody endq rest'
  | c :: rest => !(c = 0 || c = endq) && wellFormedBody endq rest

/-- Specification-side well-formedness of a block-comment body: starting with
previous byte `prev`, the scan never sees NUL and never sees `/` right after
`*` (so the comment is closed exactly by the appended closer). -/
def noClose (prev : Nat) : List Nat → Bool
  | [] => true
  | c :: rest => !(c = 0) && !(c = 47 && prev = 42) && noClose c rest

/-- Specification-side invariant for the interning claims: an identifier token
carries a shared reference (allocation index) that is exactly what the
identifier map stores for its text. -/
def GoodTok (m : List (List Nat × Nat)) (t : Token) : Prop :=
  t.tp = T.TOKEN_IDENT → ∃ v, t.id = some v ∧ assocLookup m t.val = some v

end Rcc

namespace Rcc

/-! Basic lemmas about the buffer cursor and list indexing. -/

theorem getD_drop (l : List Nat) : ∀ (n i : Nat), (l.drop n).getD i 0 = l.getD (n + i) 0 := by
  induction l with
  | nil => intro n i; simp
  | cons a l ih =>
    intro n i
    cases n with
    | zero => simp
    | succ n => simpa [Nat.succ_add] using ih n i

theorem drop_cons_step (l : List Nat) (n c : Nat) (r : List Nat)
    (h : l.drop n = c :: r) :
    l.getD n 0 = c ∧ l.drop (n + 1) = r ∧ n < l.length := by
  refine ⟨?_, ?_, ?_⟩
  · have h0 := getD_drop l n 0
    rw [h] at h0
    simpa using h0.symm
  · have : l.drop (n + 1) = (l.drop n).drop 1 := by
      rw [List.drop_drop]
    rw [this, h]
    rfl
  · have hl : (l.drop n).length = l.length - n := List.length_drop n l
    rw [h] at hl
    simp at hl
    omega

theorem drop_nil_pos (l : List Nat) (n : Nat) (h : l.drop n = [])
    (hn : n ≤ l.length) : n = l.length ∧ l.getD n 0 = 0 := by
  have hl : (l.drop n).length = l.length - n := List.length_drop n l
  rw [h] at hl
  simp at hl
  constructor
  · omega
  · have h0 := getD_drop l n 0
    rw [h] at h0
    simpa using h0.symm

theorem CBuf.next_fst (b : CBuf) : (b.next).1 = b.buf.getD b.pos 0 := by
  simp only [CBuf.next]
  split <;> rfl

theorem CBuf.next_snd (b : CBuf) :
    (b.next).2 = ⟨b.buf, b.pos + 1,
      if b.buf.getD b.pos 0 = 10 then b.line + 1 else b.line,
      if b.buf.getD b.pos 0 = 10 then 0 else b.column + 1⟩ := by
  simp only [CBuf.next]
  split <;> simp [*]

theorem CBuf.skip_buf (b : CBuf) : b.skip.buf = b.buf := by
  simp [CBuf.skip, CBuf.next_snd]

theorem CBuf.skip_pos (b : CBuf) : b.skip.pos = b.pos + 1 := by
  simp [CBuf.skip, CBuf.next_snd]

theorem CBuf.is_eof_false (b : CBuf) (h : b.pos ≤ b.buf.length) :
    b.is_eof = false := by
  simp [CBuf.is_eof]
  omega

theorem CBuf.is_eof_false_of_drop (b : CBuf) (c : Nat) (r : List Nat)
    (h : b.buf.drop b.pos = c :: r) : b.is_eof = false := by
  have := (drop_cons_step _ _ _ _ h).2.2
  exact b.is_eof_false (by omega)

theorem assocLookup_insert_preserve (m : List (List Nat × Nat))
    (k k' : List Nat) (v x : Nat) (habs : assocLookup m k' = none)
    (h : assocLookup m k = some v) :
    assocLookup ((k', x) :: m) k = some v := by
  have hne : k' ≠ k := by
    intro he
    rw [he, h] at habs
    exact Option.noConfusion habs
  simp [assocLookup, hne, h]

theorem op_start_facts (c : Nat) (h : is_op_start c = true) :
    c ≠ 0 ∧ c ≠ 32 ∧ c ≠ 9 ∧ c ≠ 10 ∧ is_letter c = false ∧
    is_dec c = false ∧ c ≠ 34 ∧ c ≠ 39 := by
  have hm : c ∈ opStartBytes := by
    simpa [is_op_start] using h
  fin_cases hm <;> decide

theorem next_peek0 (fuel : Nat) (tz : Tokenizer) (h : tz.buffer.peek_1 = 0) :
    next fuel tz = .ok (Token.make_eof, tz) := by
  have h' : tz.buffer.buf.getD tz.buffer.pos 0 = 0 := h
  simp only [next, CBuf.peek_4]
  rw [h']
  simp

end Rcc

namespace Rcc

/-! Monotonicity of the scanner loops: the buffer list is never changed and
the cursor never moves backwards. -/

theorem peek_ne0_pos_lt (b : CBuf) (h : b.peek_1 ≠ 0) : b.pos < b.buf.length := by
  by_contra hle
  push_neg at hle
  apply h
  have hd : b.buf.drop b.pos = [] := List.drop_eq_nil_of_le hle
  have hg := getD_drop b.buf b.pos 0
  rw [hd] at hg
  simpa [CBuf.peek_1] using hg.symm

theorem identLoop_buf_pos : ∀ (fuel : Nat) (b : CBuf) (sb : List Nat),
    (identLoop fuel b sb).2.buf = b.buf ∧ b.pos ≤ (identLoop fuel b sb).2.pos := by
  intro fuel
  induction fuel with
  | zero =>
    intro b sb
    simp only [identLoop]
    split <;> simp
  | succ fuel ih =>
    intro b sb
    simp only [identLoop]
    split
    · simp
    · split
      · have h := ih (b.next).2 (sb ++ [(b.next).1])
        have hb : (b.next).2.buf = b.buf := by rw [CBuf.next_snd]
        have hp : (b.next).2.pos = b.pos + 1 := by rw [CBuf.next_snd]
        refine ⟨h.1.trans hb, ?_⟩
        have h2 := h.2
        rw [hp] at h2
        omega
      · simp

theorem numberLoop_buf_pos : ∀ (fuel : Nat) (b : CBuf) (sb : List Nat),
    (numberLoop fuel b sb).2.buf = b.buf ∧ b.pos ≤ (numberLoop fuel b sb).2.pos := by
  intro fuel
  induction fuel with
  | zero =>
    intro b sb
    simp only [numberLoop]
    split <;> simp
  | succ fuel ih =>
    intro b sb
    have hb : (b.next).2.buf = b.buf := by rw [CBuf.next_snd]
    have hp : (b.next).2.pos = b.pos + 1 := by rw [CBuf.next_snd]
    have hb2 : ((b.next).2.next).2.buf = (b.next).2.buf := by rw [CBuf.next_snd]
    have hp2 : ((b.next).2.next).2.pos = (b.next).2.pos + 1 := by rw [CBuf.next_snd]
    simp only [numberLoop]
    split
    · simp
    · split
      · have h := ih (b.next).2 (sb ++ [(b.next).1])
        refine ⟨h.1.trans hb, ?_⟩
        have h2 := h.2
        rw [hp] at h2
        omega
      · split
        · split
          · have h := ih ((b.next).2.next).2 (sb ++ [(b.next).1] ++ [((b.next).2.next).1])
            refine ⟨(h.1.trans hb2).trans hb, ?_⟩
            have h2 := h.2
            rw [hp2, hp] at h2
            omega
          · have h := ih (b.next).2 (sb ++ [(b.next).1])
            refine ⟨h.1.trans hb, ?_⟩
            have h2 := h.2
            rw [hp] at h2
            omega
        · split
          · have h := ih (b.next).2 (sb ++ [(b.next).1])
            refine ⟨h.1.trans hb, ?_⟩
            have h2 := h.2
            rw [hp] at h2
            omega
          · simp

theorem lineCommentLoop_buf_pos : ∀ (fuel : Nat) (b : CBuf) (comments : List Nat)
    (ot : Option Token) (b' : CBuf),
    lineCommentLoop fuel b comments = .ok (ot, b') →
    b'.buf = b.buf ∧ b.pos ≤ b'.pos := by
  intro fuel
  induction fuel with
  | zero =>
    intro b comments ot b' h
    simp only [lineCommentLoop] at h
    split at h
    · simp only [Except.ok.injEq, Prod.mk.injEq] at h
      rw [← h.2]
      exact ⟨rfl, Nat.le_refl _⟩
    · exact absurd h (by simp)
  | succ fuel ih =>
    intro b comments ot b' h
    have hb : (b.next).2.buf = b.buf := by rw [CBuf.next_snd]
    have hp : (b.next).2.pos = b.pos + 1 := by rw [CBuf.next_snd]
    simp only [lineCommentLoop] at h
    split at h
    · simp only [Except.ok.injEq, Prod.mk.injEq] at h
      rw [← h.2]
      exact ⟨rfl, Nat.le_refl _⟩
    · split at h
      · simp only [Except.ok.injEq, Prod.mk.injEq] at h
        rw [← h.2]
        rw [hb, hp]
        exact ⟨rfl, by omega⟩
      · split at h
        · exact absurd h (by simp)
        · have h2 := ih (b.next).2 (comments ++ [(b.next).1]) ot b' h
          rw [hb, hp] at h2
          exact ⟨h2.1, by omega⟩

theorem blockCommentLoop_buf_pos : ∀ (fuel : Nat) (b : CBuf) (prev : Nat)
    (ot : Option Token) (b' : CBuf),
    blockCommentLoop fuel b prev = .ok (ot, b') →
    b'.buf = b.buf ∧ b.pos ≤ b'.pos := by
  intro fuel
  induction fuel with
  | zero =>
    intro b prev ot b' h
    simp only [blockCommentLoop] at h
    split at h
    · simp only [Except.ok.injEq, Prod.mk.injEq] at h
      rw [← h.2]
      exact ⟨rfl, Nat.le_refl _⟩
    · exact absurd h (by simp)
  | succ fuel ih =>
    intro b prev ot b' h
    have hb : (b.next).2.buf = b.buf := by rw [CBuf.next_snd]
    have hp : (b.next).2.pos = b.pos + 1 := by rw [CBuf.next_snd]
    simp only [blockCommentLoop] at h
    split at h
    · simp only [Except.ok.injEq, Prod.mk.injEq] at h
      rw [← h.2]
      exact ⟨rfl, Nat.le_refl _⟩
    · split at h
      · exact absurd h (by simp)
      · split at h
        · simp only [Except.ok.injEq, Prod.mk.injEq] at h
          rw [← h.2]
          rw [hb, hp]
          exact ⟨rfl, by omega⟩
        · have h2 := ih (b.next).2 (b.next).1 ot b' h
          rw [hb, hp] at h2
          exact ⟨h2.1, by omega⟩

theorem stringLoop_buf_pos : ∀ (fuel : Nat) (b : CBuf) (endq : Nat)
    (sb r : List Nat) (b' : CBuf),
    stringLoop fuel b endq sb = .ok (r, b') →
    b'.buf = b.buf ∧ b.pos ≤ b'.pos := by
  intro fuel
  induction fuel with
  | zero =>
    intro b endq sb r b' h
    simp only [stringLoop] at h
    split at h
    · simp only [Except.ok.injEq, Prod.mk.injEq] at h
      rw [← h.2]
      exact ⟨rfl, Nat.le_refl _⟩
    · exact absurd h (by simp)
  | succ fuel ih =>
    intro b endq sb r b' h
    have hb : (b.next).2.buf = b.buf := by rw [CBuf.next_snd]
    have hp : (b.next).2.pos = b.pos + 1 := by rw [CBuf.next_snd]
    have hb2 : ((b.next).2.next).2.buf = (b.next).2.buf := by rw [CBuf.next_snd]
    have hp2 : ((b.next).2.next).2.pos = (b.next).2.pos + 1 := by rw [CBuf.next_snd]
    simp only [stringLoop] at h
    split at h
    · simp only [Except.ok.injEq, Prod.mk.injEq] at h
      rw [← h.2]
      exact ⟨rfl, Nat.le_refl _⟩
    · split at h
      · exact absurd h (by simp)
      · split at h
        · simp only [Except.ok.injEq, Prod.mk.injEq] at h
          rw [← h.2]
          rw [hb, hp]
          exact ⟨rfl, by omega⟩
        · split at h
          · have h2 := ih ((b.next).2.next).2 endq
              (sb ++ [92] ++ [((b.next).2.next).1]) r b' h
            rw [hb2, hb, hp2, hp] at h2
            exact ⟨h2.1, by omega⟩
          · have h2 := ih (b.next).2 endq (sb ++ [(b.next).1]) r b' h
            rw [hb, hp] at h2
            exact ⟨h2.1, by omega⟩

end Rcc

namespace Rcc

theorem identLoop_progress (fuel : Nat) (b : CBuf) (sb : List Nat)
    (he : b.is_eof = false) (ht : (is_letter b.peek_1 || is_dec b.peek_1) = true)
    (hf : 1 ≤ fuel) : b.pos + 1 ≤ (identLoop fuel b sb).2.pos := by
  cases fuel with
  | zero => omega
  | succ fuel =>
    simp only [identLoop, he, ht, Bool.false_eq_true, if_false, if_true]
    have h := identLoop_buf_pos fuel (b.next).2 (sb ++ [(b.next).1])
    have hp : (b.next).2.pos = b.pos + 1 := by rw [CBuf.next_snd]
    rw [hp] at h
    exact h.2

theorem numberLoop_progress (fuel : Nat) (b : CBuf) (sb : List Nat)
    (he : b.is_eof = false) (ht : is_dec b.peek_1 = true)
    (hf : 1 ≤ fuel) : b.pos + 1 ≤ (numberLoop fuel b sb).2.pos := by
  cases fuel with
  | zero => omega
  | succ fuel =>
    simp only [numberLoop, he, ht, Bool.false_eq_true, if_false, if_true]
    have h := numberLoop_buf_pos fuel (b.next).2 (sb ++ [(b.next).1])
    have hp : (b.next).2.pos = b.pos + 1 := by rw [CBuf.next_snd]
    rw [hp] at h
    exact h.2

theorem nextAfterComments_mono (fuel : Nat) (tz : Tokenizer) (c1 c2 c3 c4 : Nat)
    (t : Token) (tz' : Tokenizer)
    (h : nextAfterComments fuel tz c1 c2 c3 c4 = .ok (t, tz')) :
    tz'.buffer.buf = tz.buffer.buf ∧ tz.buffer.pos ≤ tz'.buffer.pos := by
  have hid := identLoop_buf_pos fuel tz.buffer []
  have hnum := numberLoop_buf_pos fuel tz.buffer []
  simp only [nextAfterComments] at h
  split at h
  · -- identifier branch
    split at h <;>
    · simp only [Except.ok.injEq, Prod.mk.injEq] at h
      rw [← h.2]
      exact ⟨hid.1, hid.2⟩
  · split at h
    · -- operator branch
      split at h
      · simp only [Except.ok.injEq, Prod.mk.injEq] at h
        rw [← h.2]
        refine ⟨?_, ?_⟩ <;> simp [CBuf.skip_buf, CBuf.skip_pos] <;> omega
      · split at h
        · simp only [Except.ok.injEq, Prod.mk.injEq] at h
          rw [← h.2]
          refine ⟨?_, ?_⟩ <;> simp [CBuf.skip_buf, CBuf.skip_pos] <;> omega
        · split at h
          · simp only [Except.ok.injEq, Prod.mk.injEq] at h
            rw [← h.2]
            refine ⟨?_, ?_⟩ <;> simp [CBuf.skip_buf, CBuf.skip_pos] <;> omega
          · split at h
            · simp only [Except.ok.injEq, Prod.mk.injEq] at h
              rw [← h.2]
              refine ⟨?_, ?_⟩ <;> simp [CBuf.skip_buf, CBuf.skip_pos] <;> omega
            · exact absurd h (by simp)
    · split at h
      · -- number branch
        simp only [Except.ok.injEq, Prod.mk.injEq] at h
        rw [← h.2]
        exact ⟨hnum.1, hnum.2⟩
      · split at h
        · -- string/char branch
          split at h
          · exact absurd h (by simp)
          · rename_i sb b2 heq
            have hs := stringLoop_buf_pos fuel (tz.buffer.next).2
              (tz.buffer.next).1 [] sb b2 heq
            have hb : (tz.buffer.next).2.buf = tz.buffer.buf := by
              rw [CBuf.next_snd]
            have hp : (tz.buffer.next).2.pos = tz.buffer.pos + 1 := by
              rw [CBuf.next_snd]
            obtain ⟨hs1, hs2⟩ := hs
            rw [hb] at hs1
            rw [hp] at hs2
            split at h <;>
            · simp only [Except.ok.injEq, Prod.mk.injEq] at h
              rw [← h.2]
              refine ⟨hs1, ?_⟩
              show tz.buffer.pos ≤ b2.pos
              omega
        · -- fallback branch
          split at h <;>
          · simp only [Except.ok.injEq, Prod.mk.injEq] at h
            rw [← h.2]
            refine ⟨?_, ?_⟩ <;> simp [CBuf.skip_buf, CBuf.skip_pos] <;> omega

theorem nextAfterComments_strict (fuel : Nat) (tz : Tokenizer) (c1 c2 c3 c4 : Nat)
    (t : Token) (tz' : Tokenizer) (hf : 1 ≤ fuel) (hc : c1 = tz.buffer.peek_1)
    (h0 : c1 ≠ 0)
    (h : nextAfterComments fuel tz c1 c2 c3 c4 = .ok (t, tz')) :
    tz'.buffer.buf = tz.buffer.buf ∧ tz.buffer.pos < tz'.buffer.pos := by
  have hlt : tz.buffer.pos < tz.buffer.buf.length := by
    apply peek_ne0_pos_lt
    rw [← hc]
    exact h0
  have he : tz.buffer.is_eof = false := tz.buffer.is_eof_false (by omega)
  simp only [nextAfterComments] at h
  split at h
  · -- identifier branch
    rename_i hlet
    have hprog := identLoop_progress fuel tz.buffer []
      he (by rw [← hc]; simp [hlet]) hf
    have hid := identLoop_buf_pos fuel tz.buffer []
    split at h <;>
    · simp only [Except.ok.injEq, Prod.mk.injEq] at h
      rw [← h.2]
      refine ⟨hid.1, ?_⟩
      show tz.buffer.pos < (identLoop fuel tz.buffer []).2.pos
      omega
  · split at h
    · -- operator branch
      split at h
      · simp only [Except.ok.injEq, Prod.mk.injEq] at h
        rw [← h.2]
        refine ⟨?_, ?_⟩ <;> simp [CBuf.skip_buf, CBuf.skip_pos] <;> omega
      · split at h
        · simp only [Except.ok.injEq, Prod.mk.injEq] at h
          rw [← h.2]
          refine ⟨?_, ?_⟩ <;> simp [CBuf.skip_buf, CBuf.skip_pos] <;> omega
        · split at h
          · simp only [Except.ok.injEq, Prod.mk.injEq] at h
            rw [← h.2]
            refine ⟨?_, ?_⟩ <;> simp [CBuf.skip_buf, CBuf.skip_pos] <;> omega
          · split at h
            · simp only [Except.ok.injEq, Prod.mk.injEq] at h
              rw [← h.2]
              refine ⟨?_, ?_⟩ <;> simp [CBuf.skip_buf, CBuf.skip_pos] <;> omega
            · exact absurd h (by simp)
    · split at h
      · -- number branch
        rename_i hdec
        have hprog := numberLoop_progress fuel tz.buffer []
          he (by rw [← hc]; exact hdec) hf
        have hnum := numberLoop_buf_pos fuel tz.buffer []
        simp only [Except.ok.injEq, Prod.mk.injEq] at h
        rw [← h.2]
        refine ⟨hnum.1, ?_⟩
        show tz.buffer.pos < (numberLoop fuel tz.buffer []).2.pos
        omega
      · split at h
        · -- string/char branch
          split at h
          · exact absurd h (by simp)
          · rename_i sb b2 heq
            have hs := stringLoop_buf_pos fuel (tz.buffer.next).2
              (tz.buffer.next).1 [] sb b2 heq
            have hb : (tz.buffer.next).2.buf = tz.buffer.buf := by
              rw [CBuf.next_snd]
            have hp : (tz.buffer.next).2.pos = tz.buffer.pos + 1 := by
              rw [CBuf.next_snd]
            obtain ⟨hs1, hs2⟩ := hs
            rw [hb] at hs1
            rw [hp] at hs2
            split at h <;>
            · simp only [Except.ok.injEq, Prod.mk.injEq] at h
              rw [← h.2]
              refine ⟨hs1, ?_⟩
              show tz.buffer.pos < b2.pos
              omega
        · -- fallback branch
          split at h <;>
          · simp only [Except.ok.injEq, Prod.mk.injEq] at h
            rw [← h.2]
            refine ⟨?_, ?_⟩ <;> simp [CBuf.skip_buf, CBuf.skip_pos] <;> omega

end Rcc

namespace Rcc

theorem next_strict (fuel : Nat) (tz : Tokenizer) (t : Token) (tz' : Tokenizer)
    (hf : 1 ≤ fuel) (hp0 : tz.buffer.peek_1 ≠ 0)
    (h : next fuel tz = .ok (t, tz')) :
    tz'.buffer.buf = tz.buffer.buf ∧ tz.buffer.pos < tz'.buffer.pos := by
  have hske : tz.buffer.skip.skip.buf = tz.buffer.buf := by
    rw [CBuf.skip_buf, CBuf.skip_buf]
  have hskp : tz.buffer.skip.skip.pos = tz.buffer.pos + 2 := by
    rw [CBuf.skip_pos, CBuf.skip_pos]
  simp only [next] at h
  split at h
  · exact absurd ‹tz.buffer.peek_4.1 = 0› hp0
  · split at h
    · -- whitespace
      simp only [Except.ok.injEq, Prod.mk.injEq] at h
      rw [← h.2]
      refine ⟨?_, ?_⟩ <;> simp [CBuf.skip_buf, CBuf.skip_pos] <;> omega
    · split at h
      · -- line feed
        simp only [Except.ok.injEq, Prod.mk.injEq] at h
        rw [← h.2]
        refine ⟨?_, ?_⟩ <;> simp [CBuf.skip_buf, CBuf.skip_pos] <;> omega
      · split at h
        · -- line comment
          split at h
          · exact absurd h (by simp)
          · rename_i t2 b' heq
            have hm := lineCommentLoop_buf_pos fuel tz.buffer.skip.skip
              [47, 47] (some t2) b' heq
            rw [hske, hskp] at hm
            simp only [Except.ok.injEq, Prod.mk.injEq] at h
            rw [← h.2]
            refine ⟨hm.1, ?_⟩
            show tz.buffer.pos < b'.pos
            omega
          · rename_i b' heq
            have hm := lineCommentLoop_buf_pos fuel tz.buffer.skip.skip
              [47, 47] none b' heq
            rw [hske, hskp] at hm
            have hnac := nextAfterComments_mono fuel
              ⟨tz.file_name, b', tz.punct_map, tz.idmap, tz.next_id⟩
              (tz.buffer.peek_4.1) (tz.buffer.peek_4.2.1) (tz.buffer.peek_4.2.2.1)
              (tz.buffer.peek_4.2.2.2) t tz' h
            have hh1 : (⟨tz.file_name, b', tz.punct_map, tz.idmap,
              tz.next_id⟩ : Tokenizer).buffer.buf = b'.buf := rfl
            have hh2 : (⟨tz.file_name, b', tz.punct_map, tz.idmap,
              tz.next_id⟩ : Tokenizer).buffer.pos = b'.pos := rfl
            rw [hh1] at hnac
            rw [hh2] at hnac
            exact ⟨hnac.1.trans hm.1, by omega⟩
        · split at h
          · -- block comment
            split at h
            · exact absurd h (by simp)
            · rename_i t2 b' heq
              have hm := blockCommentLoop_buf_pos fuel tz.buffer.skip.skip
                0 (some t2) b' heq
              rw [hske, hskp] at hm
              simp only [Except.ok.injEq, Prod.mk.injEq] at h
              rw [← h.2]
              refine ⟨hm.1, ?_⟩
              show tz.buffer.pos < b'.pos
              omega
            · rename_i b' heq
              have hm := blockCommentLoop_buf_pos fuel tz.buffer.skip.skip
                0 none b' heq
              rw [hske, hskp] at hm
              have hnac := nextAfterComments_mono fuel
                ⟨tz.file_name, b', tz.punct_map, tz.idmap, tz.next_id⟩
                (tz.buffer.peek_4.1) (tz.buffer.peek_4.2.1)
                (tz.buffer.peek_4.2.2.1) (tz.buffer.peek_4.2.2.2) t tz' h
              have hh1 : (⟨tz.file_name, b', tz.punct_map, tz.idmap,
                tz.next_id⟩ : Tokenizer).buffer.buf = b'.buf := rfl
              have hh2 : (⟨tz.file_name, b', tz.punct_map, tz.idmap,
                tz.next_id⟩ : Tokenizer).buffer.pos = b'.pos := rfl
              rw [hh1] at hnac
              rw [hh2] at hnac
              exact ⟨hnac.1.trans hm.1, by omega⟩
          · -- remaining branches
            exact nextAfterComments_strict fuel tz _ _ _ _ t tz' hf rfl hp0 h

end Rcc

namespace Rcc

/-! Fuel sufficiency: with fuel at least the remaining buffer length, no loop
and no driver run ever reports fuel exhaustion, so the fuel device is
invisible on real runs. -/

theorem lineCommentLoop_ne_fuel : ∀ (fuel : Nat) (b : CBuf) (comments : List Nat),
    b.buf.length + 1 ≤ fuel + b.pos →
    lineCommentLoop fuel b comments ≠ .error "FUEL" := by
  intro fuel
  induction fuel with
  | zero =>
    intro b comments hb
    simp only [lineCommentLoop]
    split
    · simp
    · rename_i hne
      simp [CBuf.is_eof] at hne
      omega
  | succ fuel ih =>
    intro b comments hb
    simp only [lineCommentLoop]
    split
    · simp
    · split
      · simp
      · split
        · simp
        · have hp : (b.next).2.pos = b.pos + 1 := by rw [CBuf.next_snd]
          have hbf : (b.next).2.buf = b.buf := by rw [CBuf.next_snd]
          apply ih
          rw [hp, hbf]
          omega

theorem blockCommentLoop_ne_fuel : ∀ (fuel : Nat) (b : CBuf) (prev : Nat),
    b.buf.length + 1 ≤ fuel + b.pos →
    blockCommentLoop fuel b prev ≠ .error "FUEL" := by
  intro fuel
  induction fuel with
  | zero =>
    intro b prev hb
    simp only [blockCommentLoop]
    split
    · simp
    · rename_i hne
      simp [CBuf.is_eof] at hne
      omega
  | succ fuel ih =>
    intro b prev hb
    simp only [blockCommentLoop]
    split
    · simp
    · split
      · simp
      · split
        · simp
        · have hp : (b.next).2.pos = b.pos + 1 := by rw [CBuf.next_snd]
          have hbf : (b.next).2.buf = b.buf := by rw [CBuf.next_snd]
          apply ih
          rw [hp, hbf]
          omega

theorem stringLoop_ne_fuel : ∀ (fuel : Nat) (b : CBuf) (endq : Nat) (sb : List Nat),
    b.buf.length + 1 ≤ fuel + b.pos →
    stringLoop fuel b endq sb ≠ .error "FUEL" := by
  intro fuel
  induction fuel with
  | zero =>
    intro b endq sb hb
    simp only [stringLoop]
    split
    · simp
    · rename_i hne
      simp [CBuf.is_eof] at hne
      omega
  | succ fuel ih =>
    intro b endq sb hb
    have hp : (b.next).2.pos = b.pos + 1 := by rw [CBuf.next_snd]
    have hbf : (b.next).2.buf = b.buf := by rw [CBuf.next_snd]
    have hp2 : ((b.next).2.next).2.pos = (b.next).2.pos + 1 := by rw [CBuf.next_snd]
    have hbf2 : ((b.next).2.next).2.buf = (b.next).2.buf := by rw [CBuf.next_snd]
    simp only [stringLoop]
    split
    · simp
    · split
      · simp
      · split
        · simp
        · split
          · apply ih
            rw [hp2, hbf2, hp, hbf]
            omega
          · apply ih
            rw [hp, hbf]
            omega

theorem nextAfterComments_ne_fuel (fuel : Nat) (tz : Tokenizer) (c1 c2 c3 c4 : Nat)
    (hb : tz.buffer.buf.length ≤ fuel + tz.buffer.pos) :
    nextAfterComments fuel tz c1 c2 c3 c4 ≠ .error "FUEL" := by
  simp only [nextAfterComments]
  split
  · simp
  · split
    · split
      · simp
      · split
        · simp
        · split
          · simp
          · split
            · simp
            · simp
    · split
      · simp
      · split
        · -- string/char branch: the loop may fail but never with "FUEL"
          have hstr := stringLoop_ne_fuel fuel (tz.buffer.next).2
            (tz.buffer.next).1 []
            (by
              have hp : (tz.buffer.next).2.pos = tz.buffer.pos + 1 := by
                rw [CBuf.next_snd]
              have hbf : (tz.buffer.next).2.buf = tz.buffer.buf := by
                rw [CBuf.next_snd]
              rw [hp, hbf]
              omega)
          split
          · rename_i e heq
            intro hcon
            apply hstr
            rw [heq]
            simp only [Except.error.injEq] at hcon
            rw [hcon]
          · split
            · simp
            · simp
        · split
          · simp
          · simp

theorem next_ne_fuel (fuel : Nat) (tz : Tokenizer)
    (hb : tz.buffer.buf.length + 1 ≤ fuel + tz.buffer.pos) :
    next fuel tz ≠ .error "FUEL" := by
  have hske : tz.buffer.skip.skip.buf = tz.buffer.buf := by
    rw [CBuf.skip_buf, CBuf.skip_buf]
  have hskp : tz.buffer.skip.skip.pos = tz.buffer.pos + 2 := by
    rw [CBuf.skip_pos, CBuf.skip_pos]
  simp only [next]
  split
  · simp
  · split
    · simp
    · split
      · simp
      · split
        · -- line comment
          have hlc := lineCommentLoop_ne_fuel fuel tz.buffer.skip.skip [47, 47]
            (by rw [hske, hskp]; omega)
          split
          · rename_i e heq
            intro hcon
            apply hlc
            rw [heq]
            simp only [Except.error.injEq] at hcon
            rw [hcon]
          · simp
          · apply nextAfterComments_ne_fuel
            rename_i b' heq
            have hm := lineCommentLoop_buf_pos fuel tz.buffer.skip.skip
              [47, 47] none b' heq
            rw [hske, hskp] at hm
            have hh1 : (⟨tz.file_name, b', tz.punct_map, tz.idmap,
              tz.next_id⟩ : Tokenizer).buffer.buf = b'.buf := rfl
            have hh2 : (⟨tz.file_name, b', tz.punct_map, tz.idmap,
              tz.next_id⟩ : Tokenizer).buffer.pos = b'.pos := rfl
            rw [hh1, hh2, hm.1]
            omega
        · split
          · -- block comment
            have hbc := blockCommentLoop_ne_fuel fuel tz.buffer.skip.skip 0
              (by rw [hske, hskp]; omega)
            split
            · rename_i e heq
              intro hcon
              apply hbc
              rw [heq]
              simp only [Except.error.injEq] at hcon
              rw [hcon]
            · simp
            · apply nextAfterComments_ne_fuel
              rename_i b' heq
              have hm := blockCommentLoop_buf_pos fuel tz.buffer.skip.skip
                0 none b' heq
              rw [hske, hskp] at hm
              have hh1 : (⟨tz.file_name, b', tz.punct_map, tz.idmap,
                tz.next_id⟩ : Tokenizer).buffer.buf = b'.buf := rfl
              have hh2 : (⟨tz.file_name, b', tz.punct_map, tz.idmap,
                tz.next_id⟩ : Tokenizer).buffer.pos = b'.pos := rfl
              rw [hh1, hh2, hm.1]
              omega
          · apply nextAfterComments_ne_fuel
            omega

end Rcc

namespace Rcc

theorem tokenizeLoop_ne_fuel : ∀ (fuel : Nat) (tz : Tokenizer)
    (acc line : List Token) (nw : Bool),
    tz.buffer.buf.length + 1 ≤ fuel + tz.buffer.pos →
    tokenizeLoop fuel tz acc line nw ≠ .error "FUEL" := by
  intro fuel
  induction fuel with
  | zero =>
    intro tz acc line nw hb
    simp only [tokenizeLoop]
    split
    · simp
    · rename_i hne
      simp [CBuf.is_eof] at hne
      omega
  | succ fuel ih =>
    intro tz acc line nw hb
    simp only [tokenizeLoop]
    split
    · simp
    · rename_i hne
      have hposle : tz.buffer.pos ≤ tz.buffer.buf.length := by
        simp [CBuf.is_eof] at hne
        omega
      cases hnx : next (tz.buffer.buf.length + 5) tz with
      | error e =>
        simp only [hnx]
        intro hcon
        apply next_ne_fuel (tz.buffer.buf.length + 5) tz (by omega)
        rw [hnx]
        simp only [Except.error.injEq] at hcon
        rw [hcon]
      | ok p =>
        obtain ⟨t0, tz'⟩ := p
        simp only [hnx]
        split
        · -- the re-resolution step panicked: a non-FUEL error
          rename_i e hstep
          split at hstep
          · split at hstep
            · simp only [Except.error.injEq] at hstep
              rw [← hstep]
              simp
            · exact absurd hstep (by simp)
          · exact absurd hstep (by simp)
        · rename_i t1 hstep
          have htt : t1.tp = t0.tp := by
            split at hstep
            · split at hstep
              · exact absurd hstep (by simp)
              · simp only [Except.ok.injEq] at hstep
                rw [← hstep]
            · simp only [Except.ok.injEq] at hstep
              rw [← hstep]
          split
          · simp
          · rename_i ht1
            have hpk : tz.buffer.peek_1 ≠ 0 := by
              intro hpk0
              have hh := next_peek0 (tz.buffer.buf.length + 5) tz hpk0
              rw [hnx] at hh
              simp only [Except.ok.injEq, Prod.mk.injEq] at hh
              apply ht1
              rw [htt, hh.1]
              rfl
            have hstrict := next_strict (tz.buffer.buf.length + 5) tz t0 tz'
              (by omega) hpk hnx
            have hrec : tz'.buffer.buf.length + 1 ≤ fuel + tz'.buffer.pos := by
              rw [hstrict.1]
              have := hstrict.2
              omega
            repeat' split
            all_goals exact ih tz' _ _ _ hrec

end Rcc

namespace Rcc

theorem CBuf.next_2_buf (b : CBuf) : (b.next).2.buf = b.buf := by
  rw [CBuf.next_snd]

theorem CBuf.next_2_pos (b : CBuf) : (b.next).2.pos = b.pos + 1 := by
  rw [CBuf.next_snd]

theorem CBuf.next_2_line_of_ne (b : CBuf) (h : b.buf.getD b.pos 0 ≠ 10) :
    (b.next).2.line = b.line := by
  rw [CBuf.next_snd]
  show (if b.buf.getD b.pos 0 = 10 then b.line + 1 else b.line) = b.line
  rw [if_neg h]

theorem CBuf.next_2_column_of_ne (b : CBuf) (h : b.buf.getD b.pos 0 ≠ 10) :
    (b.next).2.column = b.column + 1 := by
  rw [CBuf.next_snd]
  show (if b.buf.getD b.pos 0 = 10 then 0 else b.column + 1) = b.column + 1
  rw [if_neg h]

theorem CBuf.peek_4_1 (b : CBuf) : b.peek_4.1 = b.buf.getD b.pos 0 := rfl

theorem CBuf.peek_4_2 (b : CBuf) : b.peek_4.2.1 = b.buf.getD (b.pos + 1) 0 := rfl

theorem CBuf.peek_4_3 (b : CBuf) : b.peek_4.2.2.1 = b.buf.getD (b.pos + 2) 0 := rfl

theorem CBuf.peek_4_4 (b : CBuf) : b.peek_4.2.2.2 = b.buf.getD (b.pos + 3) 0 := rfl

/-- A line comment whose remaining input has no line feed and no NUL before
true end-of-input runs into the sentinel and panics. -/
theorem lineCommentLoop_err : ∀ (fuel : Nat) (body : List Nat) (b : CBuf)
    (comments : List Nat),
    (∀ c ∈ body, c ≠ 10 ∧ c ≠ 0) →
    body.length + 1 ≤ fuel →
    b.buf.drop b.pos = body →
    b.pos ≤ b.buf.length →
    lineCommentLoop fuel b comments = .error "no new-line at end of file..." := by
  intro fuel
  induction fuel with
  | zero =>
    intro body b comments hbody hf hd hle
    omega
  | succ fuel ih =>
    intro body b comments hbody hf hd hle
    cases body with
    | nil =>
      have hnil := drop_nil_pos b.buf b.pos hd hle
      have he : b.is_eof = false := b.is_eof_false hle
      have hc : (b.next).1 = 0 := by rw [CBuf.next_fst, hnil.2]
      simp only [lineCommentLoop, he, Bool.false_eq_true, if_false]
      rw [hc]
      simp
    | cons c rest =>
      have hstep := drop_cons_step b.buf b.pos c rest hd
      have he : b.is_eof = false := b.is_eof_false (by omega)
      have hc : (b.next).1 = c := by rw [CBuf.next_fst, hstep.1]
      have hcf := hbody c (by simp)
      simp only [lineCommentLoop, he, Bool.false_eq_true, if_false]
      rw [hc, if_neg hcf.1, if_neg hcf.2]
      apply ih rest (b.next).2 (comments ++ [c])
        (fun x hx => hbody x (by simp [hx]))
        (by simp at hf ⊢; omega)
      · rw [CBuf.next_2_buf, CBuf.next_2_pos]
        exact hstep.2.1
      · rw [CBuf.next_2_buf, CBuf.next_2_pos]
        omega

/-- A line comment with a line feed before end-of-input consumes up to and
including that line feed and yields the line-feed marker. -/
theorem lineCommentLoop_lf : ∀ (fuel : Nat) (body : List Nat) (b : CBuf)
    (comments rest : List Nat),
    (∀ c ∈ body, c ≠ 10 ∧ c ≠ 0) →
    body.length + 1 ≤ fuel →
    b.buf.drop b.pos = body ++ 10 :: rest →
    lineCommentLoop fuel b comments = .ok (some Token.make_lf,
      ⟨b.buf, b.pos + body.length + 1, b.line + 1, 0⟩) := by
  intro fuel
  induction fuel with
  | zero =>
    intro body b comments rest hbody hf hd
    omega
  | succ fuel ih =>
    intro body b comments rest hbody hf hd
    cases body with
    | nil =>
      have hstep := drop_cons_step b.buf b.pos 10 rest hd
      have he : b.is_eof = false := b.is_eof_false (by omega)
      have hc : (b.next).1 = 10 := by rw [CBuf.next_fst, hstep.1]
      simp only [lineCommentLoop, he, Bool.false_eq_true, if_false]
      rw [hc, if_pos rfl, CBuf.next_snd, hstep.1]
      simp
    | cons c rest2 =>
      have hstep := drop_cons_step b.buf b.pos c (rest2 ++ 10 :: rest)
        (by simpa using hd)
      have he : b.is_eof = false := b.is_eof_false (by omega)
      have hc : (b.next).1 = c := by rw [CBuf.next_fst, hstep.1]
      have hcf := hbody c (by simp)
      simp only [lineCommentLoop, he, Bool.false_eq_true, if_false]
      rw [hc, if_neg hcf.1, if_neg hcf.2]
      have h2 := ih rest2 (b.next).2 (comments ++ [c]) rest
        (fun x hx => hbody x (by simp [hx]))
        (by simp at hf ⊢; omega)
        (by rw [CBuf.next_2_buf, CBuf.next_2_pos]; exact hstep.2.1)
      rw [CBuf.next_2_buf, CBuf.next_2_pos,
        CBuf.next_2_line_of_ne b (by rw [hstep.1]; exact hcf.1)] at h2
      rw [h2]
      simp <;> omega

/-- A block comment whose body never closes early and has no NUL, followed by
the two-byte closer, consumes through the closer and yields the whitespace
marker. -/
theorem blockCommentLoop_ws : ∀ (fuel : Nat) (body : List Nat) (prev : Nat)
    (b : CBuf) (rest : List Nat),
    noClose prev body = true →
    body.length + 3 ≤ fuel →
    b.buf.drop b.pos = body ++ [42, 47] ++ rest →
    ∃ ln cl, blockCommentLoop fuel b prev = .ok (some Token.make_ws,
      ⟨b.buf, b.pos + body.length + 2, ln, cl⟩) := by
  intro fuel
  induction fuel with
  | zero =>
    intro body prev b rest hn hf hd
    omega
  | succ fuel ih =>
    intro body prev b rest hn hf hd
    cases body with
    | nil =>
      simp only [List.nil_append] at hd
      have hstep := drop_cons_step b.buf b.pos 42 (47 :: rest) hd
      have he : b.is_eof = false := b.is_eof_false (by omega)
      have hc : (b.next).1 = 42 := by rw [CBuf.next_fst, hstep.1]
      have hstep2 := drop_cons_step (b.next).2.buf (b.next).2.pos 47 rest
        (by rw [CBuf.next_2_buf, CBuf.next_2_pos]; exact hstep.2.1)
      rw [CBuf.next_2_buf, CBuf.next_2_pos] at hstep2
      have he2 : (b.next).2.is_eof = false := by
        apply CBuf.is_eof_false
        rw [CBuf.next_2_buf, CBuf.next_2_pos]
        omega
      have hc2 : ((b.next).2.next).1 = 47 := by
        rw [CBuf.next_fst, CBuf.next_2_buf, CBuf.next_2_pos, hstep2.1]
      cases fuel with
      | zero => omega
      | succ fuel2 =>
        simp only [blockCommentLoop, he, he2, Bool.false_eq_true, if_false]
        rw [hc, hc2, if_neg (by omega), if_neg (by omega),
          if_neg (by omega), if_pos (by omega)]
        refine ⟨((b.next).2.next).2.line, ((b.next).2.next).2.column, ?_⟩
        have hb2 : ((b.next).2.next).2.buf = b.buf := by
          rw [CBuf.next_2_buf, CBuf.next_2_buf]
        have hp2 : ((b.next).2.next).2.pos = b.pos + 2 := by
          rw [CBuf.next_2_pos, CBuf.next_2_pos]
        have : ((b.next).2.next).2 = ⟨b.buf, b.pos + 2,
            ((b.next).2.next).2.line, ((b.next).2.next).2.column⟩ := by
          rw [← hb2, ← hp2]
        rw [this]
        simp
    | cons c rest2 =>
      have hstep := drop_cons_step b.buf b.pos c (rest2 ++ [42, 47] ++ rest)
        (by simpa using hd)
      have he : b.is_eof = false := b.is_eof_false (by omega)
      have hc : (b.next).1 = c := by rw [CBuf.next_fst, hstep.1]
      simp only [noClose, Bool.and_eq_true, Bool.not_eq_eq_eq_not,
        Bool.not_true, decide_eq_false_iff_not] at hn
      have hmid : ¬(c = 47 ∧ prev = 42) := by
        intro hcon
        have hx := hn.1.2
        rw [hcon.1, hcon.2] at hx
        simp at hx
      simp only [blockCommentLoop, he, Bool.false_eq_true, if_false]
      rw [hc, if_neg hn.1.1, if_neg hmid]
      obtain ⟨ln, cl, h2⟩ := ih rest2 c (b.next).2 rest hn.2
        (by simp at hf ⊢; omega)
        (by rw [CBuf.next_2_buf, CBuf.next_2_pos]; simpa using hstep.2.1)
      rw [CBuf.next_2_buf, CBuf.next_2_pos] at h2
      refine ⟨ln, cl, ?_⟩
      rw [h2]
      simp <;> omega

end Rcc

namespace Rcc

/-- A properly terminated literal body is consumed verbatim: every escape pair
and every plain byte lands in the accumulator unchanged, and the loop stops
just after the closing delimiter. -/
theorem stringLoop_ok : ∀ (fuel : Nat) (body : List Nat) (b : CBuf)
    (endq : Nat) (sb rest : List Nat),
    wellFormedBody endq body = true →
    endq ≠ 0 → endq ≠ 92 →
    body.length + 1 ≤ fuel →
    b.buf.drop b.pos = body ++ [endq] ++ rest →
    ∃ ln cl, stringLoop fuel b endq sb =
      .ok (sb ++ body, ⟨b.buf, b.pos + body.length + 1, ln, cl⟩) := by
  intro fuel
  induction fuel with
  | zero =>
    intro body b endq sb rest hwf h0 h92 hf hd
    omega
  | succ fuel ih =>
    intro body b endq sb rest hwf h0 h92 hf hd
    cases body with
    | nil =>
      simp only [List.nil_append] at hd
      have hstep := drop_cons_step b.buf b.pos endq rest hd
      have he : b.is_eof = false := b.is_eof_false (by omega)
      have hc : (b.next).1 = endq := by rw [CBuf.next_fst, hstep.1]
      simp only [stringLoop, he, Bool.false_eq_true, if_false]
      rw [hc, if_neg h0, if_pos rfl]
      refine ⟨(b.next).2.line, (b.next).2.column, ?_⟩
      have hself : (b.next).2 = ⟨b.buf, b.pos + 1,
          (b.next).2.line, (b.next).2.column⟩ := by
        rw [← CBuf.next_2_buf b, ← CBuf.next_2_pos b]
      rw [hself]
      simp
    | cons c rest2 =>
      by_cases hc92 : c = 92
      · subst hc92
        cases rest2 with
        | nil => simp [wellFormedBody] at hwf
        | cons c2 rest3 =>
          have hwf3 : wellFormedBody endq rest3 = true := by
            simpa [wellFormedBody] using hwf
          have hstep := drop_cons_step b.buf b.pos 92
            (c2 :: rest3 ++ [endq] ++ rest) (by simpa using hd)
          have he : b.is_eof = false := b.is_eof_false (by omega)
          have hc : (b.next).1 = 92 := by rw [CBuf.next_fst, hstep.1]
          have hstep2 := drop_cons_step (b.next).2.buf (b.next).2.pos c2
            (rest3 ++ [endq] ++ rest)
            (by rw [CBuf.next_2_buf, CBuf.next_2_pos]; simpa using hstep.2.1)
          have hc2 : ((b.next).2.next).1 = c2 := by
            rw [CBuf.next_fst, hstep2.1]
          simp only [stringLoop, he, Bool.false_eq_true, if_false]
          rw [hc, if_neg (by omega), if_neg (fun hcon => h92 hcon.symm),
            if_pos rfl, hc2]
          obtain ⟨ln, cl, h2⟩ := ih rest3 ((b.next).2.next).2 endq
            (sb ++ [92] ++ [c2]) rest hwf3 h0 h92
            (by simp at hf ⊢; omega)
            (by
              rw [CBuf.next_2_buf, CBuf.next_2_buf, CBuf.next_2_pos,
                CBuf.next_2_pos]
              have := hstep2.2.1
              rw [CBuf.next_2_buf, CBuf.next_2_pos] at this
              simpa using this)
          rw [CBuf.next_2_buf, CBuf.next_2_buf, CBuf.next_2_pos,
            CBuf.next_2_pos] at h2
          refine ⟨ln, cl, ?_⟩
          rw [h2]
          simp <;> omega
      · have hwf2 : (¬ c = 0 ∧ ¬ c = endq) ∧ wellFormedBody endq rest2 = true := by
          have hx := hwf
          simp only [wellFormedBody, if_neg hc92, Bool.and_eq_true,
            Bool.not_eq_eq_eq_not, Bool.not_true, Bool.or_eq_false_iff,
            decide_eq_false_iff_not] at hx
          exact ⟨⟨hx.1.1, hx.1.2⟩, hx.2⟩
        have hstep := drop_cons_step b.buf b.pos c
          (rest2 ++ [endq] ++ rest) (by simpa using hd)
        have he : b.is_eof = false := b.is_eof_false (by omega)
        have hc : (b.next).1 = c := by rw [CBuf.next_fst, hstep.1]
        simp only [stringLoop, he, Bool.false_eq_true, if_false]
        rw [hc, if_neg hwf2.1.1, if_neg hwf2.1.2, if_neg hc92]
        obtain ⟨ln, cl, h2⟩ := ih rest2 (b.next).2 endq (sb ++ [c]) rest
          hwf2.2 h0 h92
          (by simp at hf ⊢; omega)
          (by rw [CBuf.next_2_buf, CBuf.next_2_pos]; simpa using hstep.2.1)
        rw [CBuf.next_2_buf, CBuf.next_2_pos] at h2
        refine ⟨ln, cl, ?_⟩
        rw [h2]
        simp <;> omega

end Rcc

namespace Rcc

theorem skip2_buf (b : CBuf) : b.skip.skip.buf = b.buf := by
  rw [CBuf.skip_buf, CBuf.skip_buf]

theorem skip2_pos (b : CBuf) : b.skip.skip.pos = b.pos + 2 := by
  rw [CBuf.skip_pos, CBuf.skip_pos]

theorem skip2_line (b : CBuf) (h1 : b.buf.getD b.pos 0 ≠ 10)
    (h2 : b.buf.getD (b.pos + 1) 0 ≠ 10) : b.skip.skip.line = b.line := by
  show ((b.next).2.next).2.line = b.line
  rw [CBuf.next_2_line_of_ne, CBuf.next_2_line_of_ne b h1]
  rw [CBuf.next_2_buf, CBuf.next_2_pos]
  exact h2

/-- Entering the `//` branch of `next` on input that has no line feed and no
NUL before true end-of-input is fatal ("no new-line at end of file..."). -/
theorem next_linecomment_err (fuel : Nat) (tz : Tokenizer) (body : List Nat)
    (hbody : ∀ c ∈ body, c ≠ 10 ∧ c ≠ 0)
    (hf : body.length + 1 ≤ fuel)
    (hd : tz.buffer.buf.drop tz.buffer.pos = 47 :: 47 :: body) :
    next fuel tz = .error "no new-line at end of file..." := by
  have hs1 := drop_cons_step _ _ _ _ hd
  have hs2 := drop_cons_step _ _ _ _ hs1.2.1
  have h12 : tz.buffer.pos + 1 + 1 = tz.buffer.pos + 2 := by omega
  simp only [next, CBuf.peek_4_1, CBuf.peek_4_2, CBuf.peek_4_3, CBuf.peek_4_4]
  rw [hs1.1, hs2.1]
  rw [if_neg (by omega), if_neg (by omega), if_neg (by omega),
    if_pos ⟨rfl, rfl⟩]
  have hloop := lineCommentLoop_err fuel body tz.buffer.skip.skip [47, 47]
    hbody hf
    (by rw [skip2_buf, skip2_pos, ← h12]; exact hs2.2.1)
    (by rw [skip2_buf, skip2_pos]; have := hs2.2.2; omega)
  rw [hloop]

/-- Entering the `//` branch of `next` with a line feed before end-of-input
consumes the comment and the line feed and returns the line-feed marker. -/
theorem next_linecomment_lf (fuel : Nat) (tz : Tokenizer) (body rest : List Nat)
    (hbody : ∀ c ∈ body, c ≠ 10 ∧ c ≠ 0)
    (hf : body.length + 1 ≤ fuel)
    (hd : tz.buffer.buf.drop tz.buffer.pos = 47 :: 47 :: (body ++ 10 :: rest)) :
    next fuel tz = .ok (Token.make_lf,
      ⟨tz.file_name, ⟨tz.buffer.buf, tz.buffer.pos + body.length + 3,
        tz.buffer.line + 1, 0⟩, tz.punct_map, tz.idmap, tz.next_id⟩) := by
  have hs1 := drop_cons_step _ _ _ _ hd
  have hs2 := drop_cons_step _ _ _ _ hs1.2.1
  have h12 : tz.buffer.pos + 1 + 1 = tz.buffer.pos + 2 := by omega
  simp only [next, CBuf.peek_4_1, CBuf.peek_4_2, CBuf.peek_4_3, CBuf.peek_4_4]
  rw [hs1.1, hs2.1]
  rw [if_neg (by omega), if_neg (by omega), if_neg (by omega),
    if_pos ⟨rfl, rfl⟩]
  have hloop := lineCommentLoop_lf fuel body tz.buffer.skip.skip [47, 47] rest
    hbody hf
    (by rw [skip2_buf, skip2_pos, ← h12]; exact hs2.2.1)
  rw [skip2_buf, skip2_pos,
    skip2_line tz.buffer (by rw [hs1.1]; omega) (by rw [hs2.1]; omega)] at hloop
  rw [hloop]
  simp <;> omega

/-- Entering the `/*` branch of `next` on a properly closed block comment
consumes through the closer and returns the whitespace marker. -/
theorem next_blockcomment_ws (fuel : Nat) (tz : Tokenizer) (body rest : List Nat)
    (hn : noClose 0 body = true)
    (hf : body.length + 3 ≤ fuel)
    (hd : tz.buffer.buf.drop tz.buffer.pos =
      47 :: 42 :: (body ++ [42, 47] ++ rest)) :
    ∃ ln cl, next fuel tz = .ok (Token.make_ws,
      ⟨tz.file_name, ⟨tz.buffer.buf, tz.buffer.pos + body.length + 4, ln, cl⟩,
       tz.punct_map, tz.idmap, tz.next_id⟩) := by
  have hs1 := drop_cons_step _ _ _ _ hd
  have hs2 := drop_cons_step _ _ _ _ hs1.2.1
  have h12 : tz.buffer.pos + 1 + 1 = tz.buffer.pos + 2 := by omega
  simp only [next, CBuf.peek_4_1, CBuf.peek_4_2, CBuf.peek_4_3, CBuf.peek_4_4]
  rw [hs1.1, hs2.1]
  rw [if_neg (by omega), if_neg (by omega), if_neg (by omega),
    if_neg (by omega), if_pos ⟨rfl, rfl⟩]
  obtain ⟨ln, cl, hloop⟩ := blockCommentLoop_ws fuel body 0 tz.buffer.skip.skip
    rest hn hf
    (by rw [skip2_buf, skip2_pos, ← h12]; exact hs2.2.1)
  rw [skip2_buf, skip2_pos] at hloop
  refine ⟨ln, cl, ?_⟩
  rw [hloop]
  simp <;> omega

end Rcc

namespace Rcc

/-- Entering the string/char branch of `next` on a properly terminated literal
yields one token whose text is the consumed bytes verbatim, both delimiters
included and escape pairs undecoded, located just after the opening delimiter. -/
theorem next_string_ok (fuel : Nat) (tz : Tokenizer) (endq : Nat)
    (body rest : List Nat)
    (hq : endq = 34 ∨ endq = 39)
    (hwf : wellFormedBody endq body = true)
    (hf : body.length + 1 ≤ fuel)
    (hd : tz.buffer.buf.drop tz.buffer.pos = endq :: (body ++ [endq] ++ rest)) :
    ∃ ln cl, next fuel tz = .ok
      (⟨if endq = 34 then T.TOKEN_STRING else T.TOKEN_CHAR,
        endq :: (body ++ [endq]),
        ⟨tz.file_name, tz.buffer.line, tz.buffer.column + 1⟩, 0, none⟩,
       ⟨tz.file_name, ⟨tz.buffer.buf, tz.buffer.pos + body.length + 2, ln, cl⟩,
        tz.punct_map, tz.idmap, tz.next_id⟩) := by
  have hs1 := drop_cons_step _ _ _ _ hd
  have h10 : tz.buffer.buf.getD tz.buffer.pos 0 ≠ 10 := by
    rw [hs1.1]
    omega
  have hnf : (tz.buffer.next).1 = endq := by rw [CBuf.next_fst, hs1.1]
  have hline := CBuf.next_2_line_of_ne tz.buffer h10
  have hcol := CBuf.next_2_column_of_ne tz.buffer h10
  obtain ⟨ln, cl, hloop⟩ := stringLoop_ok fuel body (tz.buffer.next).2 endq
    [] rest hwf (by omega) (by omega) hf
    (by rw [CBuf.next_2_buf, CBuf.next_2_pos]; exact hs1.2.1)
  rw [CBuf.next_2_buf, CBuf.next_2_pos] at hloop
  refine ⟨ln, cl, ?_⟩
  rcases hq with rfl | rfl
  · simp only [next, CBuf.peek_4_1, CBuf.peek_4_2, CBuf.peek_4_3, CBuf.peek_4_4]
    rw [hs1.1]
    rw [if_neg (by omega), if_neg (by omega), if_neg (by omega),
      if_neg (by omega), if_neg (by omega)]
    simp only [nextAfterComments]
    rw [if_neg (by decide : ¬ is_letter 34 = true),
      if_neg (by decide : ¬ is_op_start 34 = true),
      if_neg (by decide : ¬ is_dec 34 = true),
      if_pos (Or.inl trivial)]
    rw [hnf, hloop, hline, hcol]
    simp [Tokenizer.create_token_spec_loc] <;> omega
  · simp only [next, CBuf.peek_4_1, CBuf.peek_4_2, CBuf.peek_4_3, CBuf.peek_4_4]
    rw [hs1.1]
    rw [if_neg (by omega), if_neg (by omega), if_neg (by omega),
      if_neg (by omega), if_neg (by omega)]
    simp only [nextAfterComments]
    rw [if_neg (by decide : ¬ is_letter 39 = true),
      if_neg (by decide : ¬ is_op_start 39 = true),
      if_neg (by decide : ¬ is_dec 39 = true),
      if_pos (Or.inr trivial)]
    rw [hnf, hloop, hline, hcol]
    simp [Tokenizer.create_token_spec_loc] <;> omega

end Rcc

namespace Rcc

theorem lineCommentLoop_some : ∀ (fuel : Nat) (b : CBuf) (comments : List Nat)
    (t2 : Token) (b' : CBuf),
    lineCommentLoop fuel b comments = .ok (some t2, b') → t2 = Token.make_lf := by
  intro fuel
  induction fuel with
  | zero =>
    intro b comments t2 b' h
    simp only [lineCommentLoop] at h
    split at h
    · simp at h
    · simp at h
  | succ fuel ih =>
    intro b comments t2 b' h
    simp only [lineCommentLoop] at h
    split at h
    · simp at h
    · split at h
      · simp only [Except.ok.injEq, Prod.mk.injEq] at h
        exact (Option.some.inj h.1).symm
      · split at h
        · simp at h
        · exact ih _ _ _ _ h

theorem blockCommentLoop_some : ∀ (fuel : Nat) (b : CBuf) (prev : Nat)
    (t2 : Token) (b' : CBuf),
    blockCommentLoop fuel b prev = .ok (some t2, b') → t2 = Token.make_ws := by
  intro fuel
  induction fuel with
  | zero =>
    intro b prev t2 b' h
    simp only [blockCommentLoop] at h
    split at h
    · simp at h
    · simp at h
  | succ fuel ih =>
    intro b prev t2 b' h
    simp only [blockCommentLoop] at h
    split at h
    · simp at h
    · split at h
      · simp at h
      · split at h
        · simp only [Except.ok.injEq, Prod.mk.injEq] at h
          exact (Option.some.inj h.1).symm
        · exact ih _ _ _ _ h

theorem nextAfterComments_idmap (fuel : Nat) (tz : Tokenizer)
    (c1 c2 c3 c4 : Nat) (t : Token) (tz' : Tokenizer)
    (h : nextAfterComments fuel tz c1 c2 c3 c4 = .ok (t, tz')) :
    (∀ k v, assocLookup tz.idmap k = some v → assocLookup tz'.idmap k = some v) ∧
    (t.tp = T.TOKEN_IDENT → ∃ w, assocLookup tz'.idmap t.val = some w) := by
  simp only [nextAfterComments] at h
  split at h
  · -- identifier branch
    split at h
    · rename_i hsome
      simp only [Except.ok.injEq, Prod.mk.injEq] at h
      constructor
      · intro k v hk
        rw [← h.2]
        exact hk
      · intro hident
        rw [← h.2, ← h.1]
        obtain ⟨w, hw⟩ := Option.isSome_iff_exists.mp hsome
        exact ⟨w, hw⟩
    · rename_i hnone
      have hnone' : assocLookup tz.idmap (identLoop fuel tz.buffer []).1 = none := by
        cases hx : assocLookup tz.idmap (identLoop fuel tz.buffer []).1 with
        | none => rfl
        | some w => exact absurd (by rw [hx]; rfl) hnone
      simp only [Except.ok.injEq, Prod.mk.injEq] at h
      constructor
      · intro k v hk
        rw [← h.2]
        exact assocLookup_insert_preserve tz.idmap k _ v _ hnone' hk
      · intro hident
        rw [← h.2, ← h.1]
        refine ⟨tz.next_id, ?_⟩
        show assocLookup (((identLoop fuel tz.buffer []).1, tz.next_id)
          :: tz.idmap) (identLoop fuel tz.buffer []).1 = some tz.next_id
        simp [assocLookup]
  · split at h
    · -- operator branch
      split at h
      · simp only [Except.ok.injEq, Prod.mk.injEq] at h
        refine ⟨fun k v hk => by rw [← h.2]; exact hk, fun hident => ?_⟩
        rw [← h.1] at hident
        simp [Tokenizer.create_token] at hident
      · split at h
        · simp only [Except.ok.injEq, Prod.mk.injEq] at h
          refine ⟨fun k v hk => by rw [← h.2]; exact hk, fun hident => ?_⟩
          rw [← h.1] at hident
          simp [Tokenizer.create_token] at hident
        · split at h
          · simp only [Except.ok.injEq, Prod.mk.injEq] at h
            refine ⟨fun k v hk => by rw [← h.2]; exact hk, fun hident => ?_⟩
            rw [← h.1] at hident
            simp [Tokenizer.create_token] at hident
          · split at h
            · simp only [Except.ok.injEq, Prod.mk.injEq] at h
              refine ⟨fun k v hk => by rw [← h.2]; exact hk, fun hident => ?_⟩
              rw [← h.1] at hident
              simp [Tokenizer.create_token] at hident
            · exact absurd h (by simp)
    · split at h
      · -- number branch
        simp only [Except.ok.injEq, Prod.mk.injEq] at h
        refine ⟨fun k v hk => by rw [← h.2]; exact hk, fun hident => ?_⟩
        rw [← h.1] at hident
        simp [Tokenizer.create_token] at hident
      · split at h
        · -- string/char branch
          split at h
          · exact absurd h (by simp)
          · split at h
            · simp only [Except.ok.injEq, Prod.mk.injEq] at h
              refine ⟨fun k v hk => by rw [← h.2]; exact hk, fun hident => ?_⟩
              rw [← h.1] at hident
              simp [Tokenizer.create_token_spec_loc] at hident
            · simp only [Except.ok.injEq, Prod.mk.injEq] at h
              refine ⟨fun k v hk => by rw [← h.2]; exact hk, fun hident => ?_⟩
              rw [← h.1] at hident
              simp [Tokenizer.create_token_spec_loc] at hident
        · -- fallback branch
          split at h
          · simp only [Except.ok.injEq, Prod.mk.injEq] at h
            refine ⟨fun k v hk => by rw [← h.2]; exact hk, fun hident => ?_⟩
            rw [← h.1] at hident
            simp [Tokenizer.create_token] at hident
          · simp only [Except.ok.injEq, Prod.mk.injEq] at h
            refine ⟨fun k v hk => by rw [← h.2]; exact hk, fun hident => ?_⟩
            rw [← h.1] at hident
            simp [Tokenizer.create_token] at hident

set_option maxHeartbeats 1000000 in
theorem next_idmap (fuel : Nat) (tz : Tokenizer) (t : Token) (tz' : Tokenizer)
    (h : next fuel tz = .ok (t, tz')) :
    (∀ k v, assocLookup tz.idmap k = some v → assocLookup tz'.idmap k = some v) ∧
    (t.tp = T.TOKEN_IDENT → ∃ w, assocLookup tz'.idmap t.val = some w) := by
  simp only [next] at h
  split at h
  · simp only [Except.ok.injEq, Prod.mk.injEq] at h
    refine ⟨fun k v hk => by rw [← h.2]; exact hk, fun hident => ?_⟩
    rw [← h.1] at hident
    simp [Token.make_eof] at hident
  · split at h
    · simp only [Except.ok.injEq, Prod.mk.injEq] at h
      refine ⟨fun k v hk => by rw [← h.2]; exact hk, fun hident => ?_⟩
      rw [← h.1] at hident
      simp [Token.make_ws] at hident
    · split at h
      · simp only [Except.ok.injEq, Prod.mk.injEq] at h
        refine ⟨fun k v hk => by rw [← h.2]; exact hk, fun hident => ?_⟩
        rw [← h.1] at hident
        simp [Token.make_lf] at hident
      · split at h
        · -- line comment
          split at h
          · exact absurd h (by simp)
          · rename_i t2 b' heq
            have ht2 := lineCommentLoop_some _ _ _ _ _ heq
            simp only [Except.ok.injEq, Prod.mk.injEq] at h
            refine ⟨fun k v hk => by rw [← h.2]; exact hk, fun hident => ?_⟩
            rw [← h.1, ht2] at hident
            simp [Token.make_lf] at hident
          · rename_i b' heq
            exact nextAfterComments_idmap fuel
              ⟨tz.file_name, b', tz.punct_map, tz.idmap, tz.next_id⟩
              tz.buffer.peek_4.1 tz.buffer.peek_4.2.1 tz.buffer.peek_4.2.2.1
              tz.buffer.peek_4.2.2.2 t tz' h
        · split at h
          · -- block comment
            split at h
            · exact absurd h (by simp)
            · rename_i t2 b' heq
              have ht2 := blockCommentLoop_some _ _ _ _ _ heq
              simp only [Except.ok.injEq, Prod.mk.injEq] at h
              refine ⟨fun k v hk => by rw [← h.2]; exact hk, fun hident => ?_⟩
              rw [← h.1, ht2] at hident
              simp [Token.make_ws] at hident
            · rename_i b' heq
              exact nextAfterComments_idmap fuel
                ⟨tz.file_name, b', tz.punct_map, tz.idmap, tz.next_id⟩
                tz.buffer.peek_4.1 tz.buffer.peek_4.2.1 tz.buffer.peek_4.2.2.1
                tz.buffer.peek_4.2.2.2 t tz' h
          · exact nextAfterComments_idmap fuel tz
              tz.buffer.peek_4.1 tz.buffer.peek_4.2.1 tz.buffer.peek_4.2.2.1
              tz.buffer.peek_4.2.2.2 t tz' h

end Rcc

namespace Rcc

theorem GoodTok_mono (m m' : List (List Nat × Nat)) (t : Token)
    (hmono : ∀ k v, assocLookup m k = some v → assocLookup m' k = some v)
    (hg : GoodTok m t) : GoodTok m' t := by
  intro hi
  obtain ⟨v, h1, h2⟩ := hg hi
  exact ⟨v, h1, hmono _ _ h2⟩

theorem GoodTok_reflag (m : List (List Nat × Nat)) (s : Token) (p : Nat)
    (hg : GoodTok m s) : GoodTok m ⟨s.tp, s.val, s.loc, p, s.id⟩ := hg

theorem mem_mapFirst (f : Token → Token) (l : List Token) (t : Token)
    (h : t ∈ mapFirst f l) : (∃ s ∈ l, t = f s) ∨ t ∈ l := by
  cases l with
  | nil => simp [mapFirst] at h
  | cons a as =>
    simp only [mapFirst, List.mem_cons] at h
    rcases h with rfl | h
    · exact Or.inl ⟨a, by simp, rfl⟩
    · exact Or.inr (by simp [h])

theorem mem_mapLast (f : Token → Token) : ∀ (l : List Token) (t : Token),
    t ∈ mapLast f l → (∃ s ∈ l, t = f s) ∨ t ∈ l := by
  intro l
  induction l with
  | nil =>
    intro t h
    simp [mapLast] at h
  | cons a as ih =>
    intro t h
    cases as with
    | nil =>
      simp only [mapLast, List.mem_cons, List.not_mem_nil, or_false] at h
      exact Or.inl ⟨a, by simp, h⟩
    | cons b bs =>
      simp only [mapLast, List.mem_cons] at h
      rcases h with rfl | h
      · exact Or.inr (by simp)
      · rcases ih t h with ⟨s, hs, rfl⟩ | h2
        · exact Or.inl ⟨s, List.mem_cons_of_mem _ hs, rfl⟩
        · exact Or.inr (List.mem_cons_of_mem _ h2)

theorem flushFlags_good (m : List (List Nat × Nat)) (line : List Token)
    (hg : ∀ t ∈ line, GoodTok m t) : ∀ t ∈ flushFlags line, GoodTok m t := by
  intro t ht
  simp only [flushFlags] at ht
  rcases mem_mapFirst _ _ _ ht with ⟨s, hs, rfl⟩ | hin
  · rcases mem_mapLast _ _ _ hs with ⟨s2, hs2, rfl⟩ | hin2
    · exact GoodTok_reflag _ _ _ (GoodTok_reflag _ _ _ (hg s2 hs2))
    · exact GoodTok_reflag _ _ _ (hg s hin2)
  · rcases mem_mapLast _ _ _ hin with ⟨s2, hs2, rfl⟩ | hin2
    · exact GoodTok_reflag _ _ _ (hg s2 hs2)
    · exact hg t hin2

end Rcc

namespace Rcc

set_option maxHeartbeats 1000000 in
theorem tokenizeLoop_good : ∀ (fuel : Nat) (tz : Tokenizer)
    (acc line : List Token) (nw : Bool) (res : List Token) (tzf : Tokenizer),
    (∀ t ∈ acc, GoodTok tz.idmap t) →
    (∀ t ∈ line, GoodTok tz.idmap t) →
    tokenizeLoop fuel tz acc line nw = .ok (res, tzf) →
    ∀ t ∈ res, GoodTok tzf.idmap t := by
  intro fuel
  induction fuel with
  | zero =>
    intro tz acc line nw res tzf hacc hline h
    simp only [tokenizeLoop] at h
    split at h
    · simp only [Except.ok.injEq, Prod.mk.injEq] at h
      rw [← h.1, ← h.2]
      exact hacc
    · exact absurd h (by simp)
  | succ fuel ih =>
    intro tz acc line nw res tzf hacc hline h
    simp only [tokenizeLoop] at h
    split at h
    · simp only [Except.ok.injEq, Prod.mk.injEq] at h
      rw [← h.1, ← h.2]
      exact hacc
    · cases hnx : next (tz.buffer.buf.length + 5) tz with
      | error e =>
        simp only [hnx] at h
        exact absurd h (by simp)
      | ok p =>
        obtain ⟨t0, tz'⟩ := p
        simp only [hnx] at h
        have hmono := (next_idmap _ _ _ _ hnx).1
        have hacc' : ∀ t ∈ acc, GoodTok tz'.idmap t :=
          fun t ht => GoodTok_mono _ _ _ hmono (hacc t ht)
        have hline' : ∀ t ∈ line, GoodTok tz'.idmap t :=
          fun t ht => GoodTok_mono _ _ _ hmono (hline t ht)
        split at h
        · simp at h
        · rename_i t1 hstep
          have hgood : GoodTok tz'.idmap t1 := by
            split at hstep
            · split at hstep
              · exact absurd hstep (by simp)
              · rename_i v heq
                simp only [Except.ok.injEq] at hstep
                intro hi
                refine ⟨v, ?_, ?_⟩
                · rw [← hstep]
                · rw [← hstep]
                  exact heq
            · rename_i hni
              simp only [Except.ok.injEq] at hstep
              intro hi
              rw [← hstep] at hi
              exact absurd hi hni
          split at h
          · -- EOF branch: pending line flushed unchanged plus the EOF token
            simp only [Except.ok.injEq, Prod.mk.injEq] at h
            rw [← h.1, ← h.2]
            intro t ht
            simp only [List.append_assoc, List.mem_append,
              List.mem_singleton] at ht
            rcases ht with ht | ht | rfl
            · exact hacc' t ht
            · exact hline' t ht
            · exact hgood
          · cases nw with
            | false =>
              simp only [Bool.false_eq_true, if_false] at h
              by_cases hlf : t1.tp = T.TOKEN_LF ∨ t1.tp = T.TOKEN_COMMENT
              · rw [if_pos hlf] at h
                by_cases hcm : t1.tp = T.TOKEN_COMMENT
                · rw [if_pos hcm] at h
                  by_cases hemp : line ++ [t1] = []
                  · rw [if_pos hemp] at h
                    exact ih tz' acc [] _ res tzf hacc'
                      (fun t ht => absurd ht (by simp)) h
                  · rw [if_neg hemp] at h
                    refine ih tz' _ [] _ res tzf ?_
                      (fun t ht => absurd ht (by simp)) h
                    intro t ht
                    rcases List.mem_append.mp ht with ht | ht
                    · exact hacc' t ht
                    · refine flushFlags_good tz'.idmap _ ?_ t ht
                      intro s hs
                      rcases List.mem_append.mp hs with hs | hs
                      · exact hline' s hs
                      · rw [List.mem_singleton.mp hs]
                        exact hgood
                · rw [if_neg hcm] at h
                  by_cases hemp : line = []
                  · rw [if_pos hemp] at h
                    exact ih tz' acc [] _ res tzf hacc'
                      (fun t ht => absurd ht (by simp)) h
                  · rw [if_neg hemp] at h
                    refine ih tz' _ [] _ res tzf ?_
                      (fun t ht => absurd ht (by simp)) h
                    intro t ht
                    rcases List.mem_append.mp ht with ht | ht
                    · exact hacc' t ht
                    · exact flushFlags_good tz'.idmap _ hline' t ht
              · rw [if_neg hlf] at h
                by_cases hws : t1.tp = T.TOKEN_WS
                · rw [if_pos hws] at h
                  exact ih tz' acc line true res tzf hacc' hline' h
                · rw [if_neg hws] at h
                  refine ih tz' acc _ _ res tzf hacc' ?_ h
                  intro s hs
                  rcases List.mem_append.mp hs with hs | hs
                  · exact hline' s hs
                  · rw [List.mem_singleton.mp hs]
                    exact hgood
            | true =>
              simp only [eq_self_iff_true, if_true] at h
              have hgood2 : GoodTok tz'.idmap
                  ⟨t1.tp, t1.val, t1.loc, t1.pos ||| WS_BEFORE, t1.id⟩ :=
                GoodTok_reflag _ _ _ hgood
              by_cases hlf : (⟨t1.tp, t1.val, t1.loc, t1.pos ||| WS_BEFORE,
                  t1.id⟩ : Token).tp = T.TOKEN_LF ∨
                  (⟨t1.tp, t1.val, t1.loc, t1.pos ||| WS_BEFORE,
                  t1.id⟩ : Token).tp = T.TOKEN_COMMENT
              · rw [if_pos hlf] at h
                by_cases hcm : (⟨t1.tp, t1.val, t1.loc, t1.pos ||| WS_BEFORE,
                    t1.id⟩ : Token).tp = T.TOKEN_COMMENT
                · rw [if_pos hcm] at h
                  by_cases hemp : line ++ [(⟨t1.tp, t1.val, t1.loc,
                      t1.pos ||| WS_BEFORE, t1.id⟩ : Token)] = []
                  · rw [if_pos hemp] at h
                    exact ih tz' acc [] _ res tzf hacc'
                      (fun t ht => absurd ht (by simp)) h
                  · rw [if_neg hemp] at h
                    refine ih tz' _ [] _ res tzf ?_
                      (fun t ht => absurd ht (by simp)) h
                    intro t ht
                    rcases List.mem_append.mp ht with ht | ht
                    · exact hacc' t ht
                    · refine flushFlags_good tz'.idmap _ ?_ t ht
                      intro s hs
                      rcases List.mem_append.mp hs with hs | hs
                      · exact hline' s hs
                      · rw [List.mem_singleton.mp hs]
                        exact hgood2
                · rw [if_neg hcm] at h
                  by_cases hemp : line = []
                  · rw [if_pos hemp] at h
                    exact ih tz' acc [] _ res tzf hacc'
                      (fun t ht => absurd ht (by simp)) h
                  · rw [if_neg hemp] at h
                    refine ih tz' _ [] _ res tzf ?_
                      (fun t ht => absurd ht (by simp)) h
                    intro t ht
                    rcases List.mem_append.mp ht with ht | ht
                    · exact hacc' t ht
                    · exact flushFlags_good tz'.idmap _ hline' t ht
              · rw [if_neg hlf] at h
                by_cases hws : (⟨t1.tp, t1.val, t1.loc, t1.pos ||| WS_BEFORE,
                    t1.id⟩ : Token).tp = T.TOKEN_WS
                · rw [if_pos hws] at h
                  exact ih tz' acc line true res tzf hacc' hline' h
                · rw [if_neg hws] at h
                  refine ih tz' acc _ _ res tzf hacc' ?_ h
                  intro s hs
                  rcases List.mem_append.mp hs with hs | hs
                  · exact hline' s hs
                  · rw [List.mem_singleton.mp hs]
                    exact hgood2

end Rcc

namespace Rcc

/-- C1: the claim says every non-empty input yields a token list with zero
internal markers whose last element is exactly one EOF token.  The code
violates it: on the input `"\` (a string literal whose trailing backslash
escape swallows the end-of-input sentinel, bypassing the "unclosed string"
panic), `tokenize` returns normally with an EMPTY token list — no EOF token
at all, and the pending string token is silently dropped, because the escape
made the buffer report end-of-file before the EOF token could be emitted.
This theorem evaluates the code at that failing input. -/
theorem claim_C1_eval :
    tokenize [] [] [34, 92] =
      .ok ([], ⟨"<string-input>", ⟨[34, 92], 3, 1, 3⟩, [], [], 0⟩) := by
  rfl

end Rcc

namespace Rcc

/-- C2: on an operator-start byte (reached by the scanner's dispatch, i.e. no
comment applies), `next` performs punctuation-table lookups of length 4, then
3, then 2, then 1, first hit wins (`specLongestMatch` states this discipline
in the spec's words), consuming exactly the matched spelling — and with table
entries for `<<=`, `<<` and `<`, the input `<<=x` tokenizes to one 3-byte
operator token followed by one identifier token `x` and the EOF token, never
to shorter operator tokens. -/
theorem claim_C2 :
    (∀ (fuel : Nat) (tz : Tokenizer) (c1 c2 c3 c4 : Nat),
      tz.buffer.peek_4 = (c1, c2, c3, c4) →
      is_op_start c1 = true →
      (c1 = 47 → c2 ≠ 47 ∧ c2 ≠ 42) →
      (match specLongestMatch tz.punct_map c1 c2 c3 c4 with
       | some (txt, k) => ∃ tz' : Tokenizer,
           next fuel tz = .ok (tz'.create_token (T.TOKEN_PUNCT k) txt, tz') ∧
           tz'.buffer.buf = tz.buffer.buf ∧
           tz'.buffer.pos = tz.buffer.pos + txt.length ∧
           tz'.punct_map = tz.punct_map ∧ tz'.idmap = tz.idmap
       | none => next fuel tz = .error "unknown operator")) ∧
    tokenize [([60, 60, 61], 3), ([60, 60], 2), ([60], 1)] [] [60, 60, 61, 120] =
      .ok ([⟨T.TOKEN_PUNCT 3, [60, 60, 61], ⟨"<string-input>", 1, 1⟩, 0, none⟩,
            ⟨T.TOKEN_IDENT, [120], ⟨"<string-input>", 1, 4⟩, 0, some 0⟩,
            Token.make_eof],
           ⟨"<string-input>", ⟨[60, 60, 61, 120], 4, 1, 4⟩,
            [([60, 60, 61], 3), ([60, 60], 2), ([60], 1)], [([120], 0)], 1⟩) := by
  refine ⟨?_, by rfl⟩
  intro fuel tz c1 c2 c3 c4 hp hop hcom
  obtain ⟨hn0, hn32, hn9, hn10, hlet, hdec, hq1, hq2⟩ := op_start_facts c1 hop
  have h1 : tz.buffer.buf.getD tz.buffer.pos 0 = c1 := by
    rw [← CBuf.peek_4_1 tz.buffer, hp]
  have h2 : tz.buffer.buf.getD (tz.buffer.pos + 1) 0 = c2 := by
    rw [← CBuf.peek_4_2 tz.buffer, hp]
  have h3 : tz.buffer.buf.getD (tz.buffer.pos + 2) 0 = c3 := by
    rw [← CBuf.peek_4_3 tz.buffer, hp]
  have h4 : tz.buffer.buf.getD (tz.buffer.pos + 3) 0 = c4 := by
    rw [← CBuf.peek_4_4 tz.buffer, hp]
  simp only [next, CBuf.peek_4_1, CBuf.peek_4_2, CBuf.peek_4_3, CBuf.peek_4_4]
  rw [h1, h2, h3, h4]
  rw [if_neg hn0, if_neg (by omega), if_neg hn10,
    if_neg (fun hx => (hcom hx.1).1 hx.2),
    if_neg (fun hx => (hcom hx.1).2 hx.2)]
  simp only [nextAfterComments]
  rw [if_neg (by simp [hlet]), if_pos hop]
  cases h4m : assocLookup tz.punct_map [c1, c2, c3, c4] with
  | some k =>
    simp only [specLongestMatch, h4m]
    refine ⟨⟨tz.file_name, tz.buffer.skip.skip.skip.skip, tz.punct_map,
      tz.idmap, tz.next_id⟩, rfl, ?_, ?_, rfl, rfl⟩
    · show tz.buffer.skip.skip.skip.skip.buf = tz.buffer.buf
      rw [CBuf.skip_buf, CBuf.skip_buf, CBuf.skip_buf, CBuf.skip_buf]
    · show tz.buffer.skip.skip.skip.skip.pos = tz.buffer.pos + 4
      rw [CBuf.skip_pos, CBuf.skip_pos, CBuf.skip_pos, CBuf.skip_pos]
  | none =>
    cases h3m : assocLookup tz.punct_map [c1, c2, c3] with
    | some k =>
      simp only [specLongestMatch, h4m, h3m]
      refine ⟨⟨tz.file_name, tz.buffer.skip.skip.skip, tz.punct_map,
        tz.idmap, tz.next_id⟩, rfl, ?_, ?_, rfl, rfl⟩
      · show tz.buffer.skip.skip.skip.buf = tz.buffer.buf
        rw [CBuf.skip_buf, CBuf.skip_buf, CBuf.skip_buf]
      · show tz.buffer.skip.skip.skip.pos = tz.buffer.pos + 3
        rw [CBuf.skip_pos, CBuf.skip_pos, CBuf.skip_pos]
    | none =>
      cases h2m : assocLookup tz.punct_map [c1, c2] with
      | some k =>
        simp only [specLongestMatch, h4m, h3m, h2m]
        refine ⟨⟨tz.file_name, tz.buffer.skip.skip, tz.punct_map,
          tz.idmap, tz.next_id⟩, rfl, ?_, ?_, rfl, rfl⟩
        · show tz.buffer.skip.skip.buf = tz.buffer.buf
          rw [CBuf.skip_buf, CBuf.skip_buf]
        · show tz.buffer.skip.skip.pos = tz.buffer.pos + 2
          rw [CBuf.skip_pos, CBuf.skip_pos]
      | none =>
        cases h1m : assocLookup tz.punct_map [c1] with
        | some k =>
          simp only [specLongestMatch, h4m, h3m, h2m, h1m]
          refine ⟨⟨tz.file_name, tz.buffer.skip, tz.punct_map,
            tz.idmap, tz.next_id⟩, rfl, ?_, ?_, rfl, rfl⟩
          · show tz.buffer.skip.buf = tz.buffer.buf
            rw [CBuf.skip_buf]
          · show tz.buffer.skip.pos = tz.buffer.pos + 1
            rw [CBuf.skip_pos]
        | none =>
          simp only [specLongestMatch, h4m, h3m, h2m, h1m]

/-- C2 witness: the longest-match theorem instantiated on the `<<=x` buffer
with the `<<=` / `<<` / `<` table. -/
theorem claim_C2_witness :
    (match specLongestMatch [([60, 60, 61], 3), ([60, 60], 2), ([60], 1)]
        60 60 61 120 with
     | some (txt, k) => ∃ tz' : Tokenizer,
         next 9 (mkTokenizer [([60, 60, 61], 3), ([60, 60], 2), ([60], 1)]
           [] [60, 60, 61, 120]) =
           .ok (tz'.create_token (T.TOKEN_PUNCT k) txt, tz') ∧
         tz'.buffer.buf = [60, 60, 61, 120] ∧
         tz'.buffer.pos = 0 + txt.length ∧
         tz'.punct_map = [([60, 60, 61], 3), ([60, 60], 2), ([60], 1)] ∧
         tz'.idmap = []
     | none => next 9 (mkTokenizer [([60, 60, 61], 3), ([60, 60], 2),
         ([60], 1)] [] [60, 60, 61, 120]) = .error "unknown operator") := by
  exact claim_C2.1 9
    (mkTokenizer [([60, 60, 61], 3), ([60, 60], 2), ([60], 1)]
      [] [60, 60, 61, 120]) 60 60 61 120 rfl (by decide) (by omega)

end Rcc

namespace Rcc

/-- C3: for every input (and any punctuation map and initial identifier map),
when `tokenize` returns, every identifier token in the result carries a
non-null shared reference into the identifier table, and any two identifier
tokens with equal text reference the same interned `Ident` instance (equal
allocation index, i.e. pointer identity, not mere textual equality). -/
theorem claim_C3 :
    ∀ (pm idm : List (List Nat × Nat)) (content : List Nat)
      (toks : List Token) (tzf : Tokenizer),
    tokenize pm idm content = .ok (toks, tzf) →
    (∀ t ∈ toks, t.tp = T.TOKEN_IDENT → t.id ≠ none) ∧
    (∀ t ∈ toks, ∀ s ∈ toks, t.tp = T.TOKEN_IDENT → s.tp = T.TOKEN_IDENT →
      t.val = s.val → t.id = s.id) := by
  intro pm idm content toks tzf h
  simp only [tokenize] at h
  have hg := tokenizeLoop_good (content.length + 5)
    (mkTokenizer pm idm content) [] [] false toks tzf
    (fun t ht => absurd ht (by simp))
    (fun t ht => absurd ht (by simp)) h
  constructor
  · intro t ht hiden
    obtain ⟨v, h1, _⟩ := hg t ht hiden
    rw [h1]
    simp
  · intro t ht s hs hti hsi hval
    obtain ⟨v, h1, h2⟩ := hg t ht hti
    obtain ⟨w, g1, g2⟩ := hg s hs hsi
    rw [hval] at h2
    rw [h2] at g2
    rw [h1, g1, Option.some.inj g2]

/-- C3 witness: on the input `ab ab` both identifier tokens carry a non-null
reference and the same one. -/
theorem claim_C3_witness :
    ∃ (toks : List Token) (tzf : Tokenizer),
      tokenize [] [] [97, 98, 32, 97, 98] = .ok (toks, tzf) ∧
      (∀ t ∈ toks, t.tp = T.TOKEN_IDENT → t.id ≠ none) ∧
      (∀ t ∈ toks, ∀ s ∈ toks, t.tp = T.TOKEN_IDENT → s.tp = T.TOKEN_IDENT →
        t.val = s.val → t.id = s.id) := by
  refine ⟨_, _, rfl, ?_, ?_⟩
  · exact (claim_C3 [] [] [97, 98, 32, 97, 98] _ _ rfl).1
  · exact (claim_C3 [] [] [97, 98, 32, 97, 98] _ _ rfl).2

/-- C4: a properly terminated string or char literal (delimiter 34 or 39,
body a well-formed sequence of plain bytes and backslash-escape pairs) is
emitted as one token whose text reproduces the consumed source bytes
verbatim — both delimiters included, escapes undecoded — with the location
captured just after the opening delimiter; and the concrete input
`"ab\"c"` yields exactly one string token whose text equals the input
byte-for-byte, followed by the EOF token. -/
theorem claim_C4 :
    (∀ (fuel : Nat) (tz : Tokenizer) (endq : Nat) (body rest : List Nat),
      (endq = 34 ∨ endq = 39) →
      wellFormedBody endq body = true →
      body.length + 1 ≤ fuel →
      tz.buffer.buf.drop tz.buffer.pos = endq :: (body ++ [endq] ++ rest)  →
      ∃ ln cl, next fuel tz = .ok
        (⟨if endq = 34 then T.TOKEN_STRING else T.TOKEN_CHAR,
          endq :: (body ++ [endq]),
          ⟨tz.file_name, tz.buffer.line, tz.buffer.column + 1⟩, 0, none⟩,
         ⟨tz.file_name, ⟨tz.buffer.buf, tz.buffer.pos + body.length + 2, ln, cl⟩,
          tz.punct_map, tz.idmap, tz.next_id⟩)) ∧
    tokenize [] [] [34, 97, 98, 92, 34, 99, 34] =
      .ok ([⟨T.TOKEN_STRING, [34, 97, 98, 92, 34, 99, 34],
              ⟨"<string-input>", 1, 1⟩, 0, none⟩, Token.make_eof],
           ⟨"<string-input>", ⟨[34, 97, 98, 92, 34, 99, 34], 7, 1, 7⟩,
            [], [], 0⟩) := by
  exact ⟨fun fuel tz endq body rest hq hwf hf hd =>
    next_string_ok fuel tz endq body rest hq hwf hf hd, by rfl⟩

/-- C4 witness: the literal theorem instantiated on the buffer holding
exactly the bytes of `"ab\"c"`. -/
theorem claim_C4_witness :
    ∃ ln cl, next 9 (mkTokenizer [] [] [34, 97, 98, 92, 34, 99, 34]) = .ok
      (⟨T.TOKEN_STRING, [34, 97, 98, 92, 34, 99, 34],
        ⟨"<string-input>", 1, 1⟩, 0, none⟩,
       ⟨"<string-input>", ⟨[34, 97, 98, 92, 34, 99, 34], 7, ln, cl⟩,
        [], [], 0⟩) := by
  exact claim_C4.1 9 (mkTokenizer [] [] [34, 97, 98, 92, 34, 99, 34])
    34 [97, 98, 92, 34, 99] [] (Or.inl rfl) (by decide) (by decide) (by rfl)

end Rcc

namespace Rcc

set_option maxHeartbeats 4000000 in
/-- C5 counterexample: on the input `a\n\nb\n` the first token `a` does NOT
carry exactly the begin-of-line and line-feed-after flags as the claim
states: the assembler also ORs whitespace-before onto the first token of
every flushed line, so `a` carries begin-of-line, whitespace-before AND
line-feed-after — a different flag set. -/
theorem claim_C5_counterexample :
    tokenize [] [] [97, 10, 10, 98, 10] =
      .ok ([⟨T.TOKEN_IDENT, [97], ⟨"<string-input>", 1, 1⟩,
              IS_AT_BOL ||| WS_BEFORE ||| LF_AFTER, some 0⟩,
            ⟨T.TOKEN_IDENT, [98], ⟨"<string-input>", 3, 1⟩,
              IS_AT_BOL ||| WS_BEFORE ||| LF_AFTER, some 1⟩,
            Token.make_eof],
           ⟨"<string-input>", ⟨[97, 10, 10, 98, 10], 5, 4, 0⟩, [],
            [([98], 1), ([97], 0)], 2⟩) ∧
    IS_AT_BOL ||| WS_BEFORE ||| LF_AFTER ≠ IS_AT_BOL ||| LF_AFTER := by
  exact ⟨by rfl, by decide⟩

set_option maxHeartbeats 4000000 in
/-- C5 amended: the input `a\n\nb\n` assembles to exactly two tokens plus the
EOF token, where BOTH `a` and `b` carry begin-of-line, whitespace-before and
line-feed-after (the assembler always sets begin-of-line AND whitespace-before
on the first token of a flushed line), and the blank line contributes no token
or flag artifact. -/
theorem claim_C5_amended :
    tokenize [] [] [97, 10, 10, 98, 10] =
      .ok ([⟨T.TOKEN_IDENT, [97], ⟨"<string-input>", 1, 1⟩,
              IS_AT_BOL ||| WS_BEFORE ||| LF_AFTER, some 0⟩,
            ⟨T.TOKEN_IDENT, [98], ⟨"<string-input>", 3, 1⟩,
              IS_AT_BOL ||| WS_BEFORE ||| LF_AFTER, some 1⟩,
            Token.make_eof],
           ⟨"<string-input>", ⟨[97, 10, 10, 98, 10], 5, 4, 0⟩, [],
            [([98], 1), ([97], 0)], 2⟩) := by
  rfl

/-- C6 counterexample: the claim says the reported location equals the
buffer's current column after the lexeme MINUS the token's text length.  On
input `ab`, after the lexeme the column is 2 and the text length is 2, so the
claim predicts column 2 - 2 = 0; the code reports column 1
(= column - length + 1). -/
theorem claim_C6_counterexample :
    next 7 (mkTokenizer [] [] [97, 98]) = .ok
      (⟨T.TOKEN_IDENT, [97, 98], ⟨"<string-input>", 1, 1⟩, 0, none⟩,
       ⟨"<string-input>", ⟨[97, 98], 2, 1, 2⟩, [], [([97, 98], 0)], 1⟩) ∧
    (1 : Nat) ≠ 2 - 2 := by
  exact ⟨by rfl, by decide⟩

/-- C6 amended: for every token built retroactively via `create_token` (all
kinds except string/char literals, which use `create_token_spec_loc`), the
reported location is the buffer's current line and, when the current column
is at least the text length, the current column minus the text length PLUS
ONE (the 1-based start column of the lexeme). -/
theorem claim_C6_amended :
    ∀ (tz : Tokenizer) (tp : T) (sb : List Nat),
      sb.length ≤ tz.buffer.column →
      (tz.create_token tp sb).loc =
        ⟨tz.file_name, tz.buffer.line, tz.buffer.column - sb.length + 1⟩ := by
  intro tz tp sb h
  simp [Tokenizer.create_token, Tokenizer.build_sloc, if_pos h]

/-- C6 witness: a token of length 2 ending at column 2 is reported at
column 1. -/
theorem claim_C6_witness :
    ((⟨"f", ⟨[97, 98], 2, 1, 2⟩, [], [], 0⟩ : Tokenizer).create_token
      T.TOKEN_IDENT [97, 98]).loc = ⟨"f", 1, 1⟩ := by
  exact claim_C6_amended ⟨"f", ⟨[97, 98], 2, 1, 2⟩, [], [], 0⟩
    T.TOKEN_IDENT [97, 98] (by decide)

end Rcc

namespace Rcc

/-- C7: when a `//` line comment is started and no line-feed (and no NUL)
occurs before true end-of-input, scanning is fatal — `next` halts with the
"no new-line at end of file..." panic instead of returning a token; when a
line feed is found, the comment is consumed through it and the line-feed
marker is returned. -/
theorem claim_C7 :
    (∀ (fuel : Nat) (tz : Tokenizer) (body : List Nat),
      (∀ c ∈ body, c ≠ 10 ∧ c ≠ 0) →
      body.length + 1 ≤ fuel →
      tz.buffer.buf.drop tz.buffer.pos = 47 :: 47 :: body →
      next fuel tz = .error "no new-line at end of file...") ∧
    (∀ (fuel : Nat) (tz : Tokenizer) (body rest : List Nat),
      (∀ c ∈ body, c ≠ 10 ∧ c ≠ 0) →
      body.length + 1 ≤ fuel →
      tz.buffer.buf.drop tz.buffer.pos = 47 :: 47 :: (body ++ 10 :: rest) →
      next fuel tz = .ok (Token.make_lf,
        ⟨tz.file_name, ⟨tz.buffer.buf, tz.buffer.pos + body.length + 3,
          tz.buffer.line + 1, 0⟩, tz.punct_map, tz.idmap, tz.next_id⟩)) := by
  exact ⟨fun fuel tz body hb hf hd => next_linecomment_err fuel tz body hb hf hd,
    fun fuel tz body rest hb hf hd =>
      next_linecomment_lf fuel tz body rest hb hf hd⟩

/-- C7 witness: the input `//ab` (no final line feed) is fatal; the input
`//ab\nc` consumes through the line feed and yields the line-feed marker. -/
theorem claim_C7_witness :
    next 9 (mkTokenizer [] [] [47, 47, 97, 98]) =
      .error "no new-line at end of file..." ∧
    next 9 (mkTokenizer [] [] [47, 47, 97, 98, 10, 99]) =
      .ok (Token.make_lf,
        ⟨"<string-input>", ⟨[47, 47, 97, 98, 10, 99], 5, 2, 0⟩, [], [], 0⟩) := by
  constructor
  · exact claim_C7.1 9 (mkTokenizer [] [] [47, 47, 97, 98]) [97, 98]
      (by decide) (by decide) (by rfl)
  · exact claim_C7.2 9 (mkTokenizer [] [] [47, 47, 97, 98, 10, 99]) [97, 98]
      [99] (by decide) (by decide) (by rfl)

/-- C8 counterexample: the claim says every call to `next` that is not at
true end-of-input consumes at least one byte.  At an embedded NUL byte —
position 0 of a 2-byte buffer, so not at true end-of-input — `next` returns
the EOF marker and consumes nothing (the NUL is indistinguishable from the
end-of-input sentinel). -/
theorem claim_C8_counterexample :
    next 6 (mkTokenizer [] [] [0, 97]) =
      .ok (Token.make_eof, mkTokenizer [] [] [0, 97]) ∧
    (mkTokenizer [] [] [0, 97]).buffer.pos = 0 ∧
    (mkTokenizer [] [] [0, 97]).buffer.buf.length = 2 := by
  exact ⟨by rfl, by rfl, by rfl⟩

/-- C8 amended: every returning call to `next` whose next byte is not NUL
consumes at least one byte of the buffer (and returns exactly one token);
at a NUL byte — the end-of-input sentinel or an embedded NUL — it returns
the EOF marker consuming nothing; consequently the `tokenize` driver
terminates on every finite input (its fuel, larger than the buffer, is never
exhausted). -/
theorem claim_C8 :
    (∀ (fuel : Nat) (tz : Tokenizer) (t : Token) (tz' : Tokenizer),
      1 ≤ fuel → tz.buffer.peek_1 ≠ 0 → next fuel tz = .ok (t, tz') →
      tz'.buffer.buf = tz.buffer.buf ∧ tz.buffer.pos < tz'.buffer.pos) ∧
    (∀ (fuel : Nat) (tz : Tokenizer), tz.buffer.peek_1 = 0 →
      next fuel tz = .ok (Token.make_eof, tz)) ∧
    (∀ (pm idm : List (List Nat × Nat)) (content : List Nat),
      tokenize pm idm content ≠ .error "FUEL") := by
  refine ⟨fun fuel tz t tz' hf hp h => next_strict fuel tz t tz' hf hp h,
    fun fuel tz hp => next_peek0 fuel tz hp, ?_⟩
  intro pm idm content
  simp only [tokenize]
  apply tokenizeLoop_ne_fuel
  simp [mkTokenizer, CBuf.create]

/-- C8 witness: on the buffer `ab` (first byte 97 ≠ 0) the scanner consumes
both bytes of the identifier, strictly advancing the cursor. -/
theorem claim_C8_witness :
    (⟨"<string-input>", ⟨[97, 98], 2, 1, 2⟩, [],
        [([97, 98], 0)], 1⟩ : Tokenizer).buffer.buf =
      (mkTokenizer [] [] [97, 98]).buffer.buf ∧
    (mkTokenizer [] [] [97, 98]).buffer.pos <
      (⟨"<string-input>", ⟨[97, 98], 2, 1, 2⟩, [],
        [([97, 98], 0)], 1⟩ : Tokenizer).buffer.pos := by
  exact claim_C8.1 7 (mkTokenizer [] [] [97, 98])
    ⟨T.TOKEN_IDENT, [97, 98], ⟨"<string-input>", 1, 1⟩, 0, none⟩
    ⟨"<string-input>", ⟨[97, 98], 2, 1, 2⟩, [], [([97, 98], 0)], 1⟩
    (by omega) (by decide) (by rfl)

end Rcc

namespace Rcc

set_option maxHeartbeats 4000000 in
/-- C9: a properly closed block comment is turned into a whitespace marker,
not a line-feed marker: `next` on `/*` body `*/` returns `Token.make_ws`;
and concretely on `a/*x*/b\n` the token after the comment (`b`) receives the
whitespace-before flag while `a` and `b` are flushed as ONE logical line
(`a` alone carries begin-of-line; `b` carries line-feed-after), so the block
comment never flushes the pending line. -/
theorem claim_C9 :
    (∀ (fuel : Nat) (tz : Tokenizer) (body rest : List Nat),
      noClose 0 body = true →
      body.length + 3 ≤ fuel →
      tz.buffer.buf.drop tz.buffer.pos =
        47 :: 42 :: (body ++ [42, 47] ++ rest) →
      ∃ ln cl, next fuel tz = .ok (Token.make_ws,
        ⟨tz.file_name, ⟨tz.buffer.buf, tz.buffer.pos + body.length + 4, ln, cl⟩,
         tz.punct_map, tz.idmap, tz.next_id⟩)) ∧
    tokenize [] [] [97, 47, 42, 120, 42, 47, 98, 10] =
      .ok ([⟨T.TOKEN_IDENT, [97], ⟨"<string-input>", 1, 1⟩,
              IS_AT_BOL ||| WS_BEFORE, some 0⟩,
            ⟨T.TOKEN_IDENT, [98], ⟨"<string-input>", 1, 7⟩,
              WS_BEFORE ||| LF_AFTER, some 1⟩,
            Token.make_eof],
           ⟨"<string-input>", ⟨[97, 47, 42, 120, 42, 47, 98, 10], 8, 2, 0⟩,
            [], [([98], 1), ([97], 0)], 2⟩) := by
  exact ⟨fun fuel tz body rest hn hf hd =>
    next_blockcomment_ws fuel tz body rest hn hf hd, by rfl⟩

/-- C9 witness: `next` on the buffer `/*x*/` returns the whitespace marker
having consumed all five bytes. -/
theorem claim_C9_witness :
    ∃ ln cl, next 9 (mkTokenizer [] [] [47, 42, 120, 42, 47]) =
      .ok (Token.make_ws,
        ⟨"<string-input>", ⟨[47, 42, 120, 42, 47], 5, ln, cl⟩, [], [], 0⟩) := by
  exact claim_C9.1 9 (mkTokenizer [] [] [47, 42, 120, 42, 47]) [120] []
    (by decide) (by decide) (by rfl)

set_option maxHeartbeats 4000000 in
/-- C10: tokens of a final line not terminated by a line feed are flushed by
the end-of-file branch with their flag bits unchanged: whenever the next
byte is the end-of-input sentinel, the driver loop returns the accumulated
tokens, the pending line verbatim, and the EOF token, mutating no flags.
Concretely, `a b` (no trailing line feed) yields `a` with NO flags and `b`
with only whitespace-before (from the real blank), while `a b\n` yields
`a` with begin-of-line and whitespace-before and `b` with whitespace-before
and line-feed-after. -/
theorem claim_C10 :
    (∀ (fuel : Nat) (tz : Tokenizer) (acc line : List Token) (nw : Bool),
      1 ≤ fuel → tz.buffer.is_eof = false → tz.buffer.peek_1 = 0 →
      tokenizeLoop fuel tz acc line nw =
        .ok (acc ++ line ++ [Token.make_eof], tz)) ∧
    tokenize [] [] [97, 32, 98] =
      .ok ([⟨T.TOKEN_IDENT, [97], ⟨"<string-input>", 1, 1⟩, 0, some 0⟩,
            ⟨T.TOKEN_IDENT, [98], ⟨"<string-input>", 1, 3⟩, WS_BEFORE, some 1⟩,
            Token.make_eof],
           ⟨"<string-input>", ⟨[97, 32, 98], 3, 1, 3⟩, [],
            [([98], 1), ([97], 0)], 2⟩) ∧
    tokenize [] [] [97, 32, 98, 10] =
      .ok ([⟨T.TOKEN_IDENT, [97], ⟨"<string-input>", 1, 1⟩,
              IS_AT_BOL ||| WS_BEFORE, some 0⟩,
            ⟨T.TOKEN_IDENT, [98], ⟨"<string-input>", 1, 3⟩,
              WS_BEFORE ||| LF_AFTER, some 1⟩,
            Token.make_eof],
           ⟨"<string-input>", ⟨[97, 32, 98, 10], 4, 2, 0⟩, [],
            [([98], 1), ([97], 0)], 2⟩) := by
  refine ⟨?_, by rfl, by rfl⟩
  intro fuel tz acc line nw hf he hp
  cases fuel with
  | zero => omega
  | succ fuel =>
    have hnx := next_peek0 (tz.buffer.buf.length + 5) tz hp
    simp only [tokenizeLoop, he, Bool.false_eq_true, if_false, hnx]
    rfl

/-- C10 witness: the EOF flush applied to a concrete pending state: the
accumulated and pending tokens appear in the output verbatim, flags
untouched, followed by the EOF token. -/
theorem claim_C10_witness :
    tokenizeLoop 1 (mkTokenizer [] [] [])
      [⟨T.TOKEN_IDENT, [97], ⟨"x", 1, 1⟩, 0, some 0⟩]
      [⟨T.TOKEN_NUMBER, [49], ⟨"x", 1, 2⟩, 0, none⟩] false =
      .ok ([⟨T.TOKEN_IDENT, [97], ⟨"x", 1, 1⟩, 0, some 0⟩,
            ⟨T.TOKEN_NUMBER, [49], ⟨"x", 1, 2⟩, 0, none⟩,
            Token.make_eof],
           mkTokenizer [] [] []) := by
  exact claim_C10.1 1 (mkTokenizer [] [] [])
    [⟨T.TOKEN_IDENT, [97], ⟨"x", 1, 1⟩, 0, some 0⟩]
    [⟨T.TOKEN_NUMBER, [49], ⟨"x", 1, 2⟩, 0, none⟩] false
    (by omega) (by rfl) (by rfl)

end Rcc
